import Mathlib

/-!
Verification of the mill-sheet text-parsing and file-naming core of
`millsheet-renamer-google-vision` (`src/main.py`), shallowly embedded in Lean.

Strings are modelled as `List Char` internally (wrapped to `String` at the
interfaces).  Python's Unicode-aware character classes (`\s`, `\d`, `\w`,
`str.upper`, `str.isalnum`, `float`) are modelled on their ASCII cores plus the
common Unicode whitespace / CJK word characters; the documents and claims under
verification only exercise those ranges.  `float` arithmetic is modelled with
exact rationals: every comparison performed by the code
(`is_valid_dimension`) is far from any IEEE-754 rounding boundary at the
granularity the claims exercise.

Regular expressions are embedded by a small backtracking matcher (`Mill.M`)
over a token syntax (`Mill.RTok`); each regex of the source is transliterated
token-by-token, preserving greedy/lazy quantifier semantics, alternation
order, word boundaries and `re.IGNORECASE`.  The matcher is fueled; every
pattern in the source has static token size far below the fuel constants used,
so the fuel never runs out (the lemmas about the matcher quantify over fuel).
-/

namespace Mill

/-! ### Character helpers (Python semantics, ASCII core) -/

/-- Python `re` `\s` / `str.strip()` whitespace (ASCII core plus the common
Unicode whitespace codepoints). -/
def isPyWs (c : Char) : Bool :=
  (9 ≤ c.toNat && c.toNat ≤ 13) || (28 ≤ c.toNat && c.toNat ≤ 32) ||
  c.toNat == 133 || c.toNat == 160 || c.toNat == 0x1680 ||
  (0x2000 ≤ c.toNat && c.toNat ≤ 0x200A) || c.toNat == 0x2028 ||
  c.toNat == 0x2029 || c.toNat == 0x202F || c.toNat == 0x205F ||
  c.toNat == 0x3000

/-- The characters replaced by `_` in `sanitize_for_filename`:
`re.sub(r'[\\/:*?"<>|]', '_', ...)`. -/
def isInvalidFileChar (c : Char) : Bool :=
  c == '\\' || c == '/' || c == ':' || c == '*' || c == '?' ||
  c == '"' || c == '<' || c == '>' || c == '|'

/-- Carriage return / line feed, the class `[\r\n]`. -/
def isCrLf (c : Char) : Bool := c == '\r' || c == '\n'

/-- ASCII decimal digit, modelling Python `\d` / `int()` digits. -/
def isDigitC (c : Char) : Bool := '0' ≤ c && c ≤ '9'

/-- ASCII letter, modelling `[A-Z]` under `re.IGNORECASE`. -/
def isAsciiLetter (c : Char) : Bool :=
  ('A' ≤ c && c ≤ 'Z') || ('a' ≤ c && c ≤ 'z')

/-- ASCII upper-casing, modelling `str.upper()` (CJK characters are fixed
points of `str.upper`, matching this model). -/
def asciiUpper (c : Char) : Char :=
  if 'a' ≤ c && c ≤ 'z' then Char.ofNat (c.toNat - 32) else c

/-- ASCII lower-casing, used for `re.IGNORECASE` comparisons. -/
def asciiLower (c : Char) : Char :=
  if 'A' ≤ c && c ≤ 'Z' then Char.ofNat (c.toNat + 32) else c

/-- Python `str.isalnum()` (ASCII core; all strings the code applies it to are
captured by `[A-Z0-9]`-style classes). -/
def isPyAlnum (c : Char) : Bool := isAsciiLetter c || isDigitC c

/-- Python `re` `\w` word character (ASCII word characters plus the CJK
ranges appearing in mill sheets: kana, CJK ideographs, fullwidth forms). -/
def isPyWord (c : Char) : Bool :=
  isPyAlnum c || c == '_' ||
  (0x3040 ≤ c.toNat && c.toNat ≤ 0x30FF) ||
  (0x4E00 ≤ c.toNat && c.toNat ≤ 0x9FFF) ||
  (0xFF10 ≤ c.toNat && c.toNat ≤ 0xFF19) ||
  (0xFF21 ≤ c.toNat && c.toNat ≤ 0xFF3A) ||
  (0xFF41 ≤ c.toNat && c.toNat ≤ 0xFF5A)

/-! ### Generic list combinators shared by the embedded functions -/

/-- `re.sub(runClass+, repl, s)`: replace every maximal run of characters
satisfying `p` by the single character `c`. -/
def collapseRuns (p : Char → Bool) (c : Char) : List Char → List Char
  | [] => []
  | [a] => if p a then [c] else [a]
  | a :: b :: rest =>
    if p a && p b then collapseRuns p c (b :: rest)
    else (if p a then c else a) :: collapseRuns p c (b :: rest)

/-- Drop the longest suffix of characters satisfying `p`
(right half of Python `str.strip`). -/
def rstripP (p : Char → Bool) (l : List Char) : List Char :=
  (l.reverse.dropWhile p).reverse

/-- Python `str.strip(chars)` over a character predicate: drop the longest
prefix and suffix of characters satisfying `p`. -/
def stripEnds (p : Char → Bool) (l : List Char) : List Char :=
  rstripP p (l.dropWhile p)

/-- Python substring test `needle in hay`. -/
def containsSub (needle : List Char) : List Char → Bool
  | [] => needle.isEmpty
  | c :: rest => needle.isPrefixOf (c :: rest) || containsSub needle rest

/-- Length of the longest prefix whose characters satisfy `p`. -/
def countLeading (p : Char → Bool) : List Char → Nat
  | [] => 0
  | c :: rest => if p c then countLeading p rest + 1 else 0

/-- First `some` produced by `f` along the list, in order. -/
def firstSome (f : α → Option β) : List α → Option β
  | [] => none
  | a :: rest => (f a).orElse fun _ => firstSome f rest

/-! ### The Sanitizer (`sanitize_for_filename`, main.py:500-524) -/

/-- Steps (1)-(6) of `sanitize_for_filename` on character lists:
collapse `[\r\n]+` to a space, replace `[\\/:*?"<>|]` by `_`, collapse `\s+`
to `_`, collapse `_+` to `_`, strip `_` at both ends, truncate to 50. -/
def sanitizeList (l : List Char) : List Char :=
  (stripEnds (fun c => c == '_')
    (collapseRuns (fun c => c == '_') '_'
      (collapseRuns isPyWs '_'
        ((collapseRuns isCrLf ' ' l).map
          fun ch => if isInvalidFileChar ch then '_' else ch)))).take 50

/-- `sanitize_for_filename(text)`; `None`/empty input yields the empty
string (the code's `if not text: return ''` guard). -/
def sanitize_for_filename (text : Option String) : String :=
  match text with
  | none => ""
  | some s => if s.data.isEmpty then "" else ⟨sanitizeList s.data⟩


/-! ### Lemmas about `collapseRuns`, `stripEnds`, `take` -/

/-- No two adjacent characters of `l` both satisfy `p`. -/
def NoAdj (p : Char → Bool) (l : List Char) : Prop :=
  l.Chain' fun x y => p x = true → p y = true → False

theorem collapseRuns_eq_self (p : Char → Bool) (c : Char) (l : List Char)
    (h : ∀ a ∈ l, p a = false) : collapseRuns p c l = l := by
  induction l with
  | nil => rfl
  | cons a tl ih =>
    cases tl with
    | nil => simp [collapseRuns, h a (by simp)]
    | cons b rest =>
      have ha := h a (by simp)
      have hb := h b (by simp)
      simp only [collapseRuns, ha, hb, Bool.false_and, Bool.false_eq_true,
        if_false]
      rw [ih fun x hx => h x (List.mem_cons_of_mem a hx)]

theorem mem_collapseRuns (p : Char → Bool) (c : Char) (l : List Char)
    (a : Char) (h : a ∈ collapseRuns p c l) :
    a = c ∨ (a ∈ l ∧ p a = false) := by
  induction l with
  | nil => simp [collapseRuns] at h
  | cons x tl ih =>
    cases tl with
    | nil =>
      cases hx : p x <;> simp only [collapseRuns, hx] at h <;> simp at h
      · exact Or.inr ⟨by simp [h], by rw [h]; exact hx⟩
      · exact Or.inl h
    | cons b rest =>
      cases hx : p x
      · simp only [collapseRuns, hx, Bool.false_and, Bool.false_eq_true,
          if_false] at h
        rcases List.mem_cons.mp h with h1 | h1
        · exact Or.inr ⟨by simp [h1], by rw [h1]; exact hx⟩
        · rcases ih h1 with h2 | ⟨h3, h4⟩
          · exact Or.inl h2
          · exact Or.inr ⟨List.mem_cons_of_mem x h3, h4⟩
      · cases hb : p b
        · simp only [collapseRuns, hx, hb, Bool.true_and, Bool.false_eq_true,
            if_false, if_true] at h
          rcases List.mem_cons.mp h with h1 | h1
          · exact Or.inl h1
          · rcases ih h1 with h2 | ⟨h3, h4⟩
            · exact Or.inl h2
            · exact Or.inr ⟨List.mem_cons_of_mem x h3, h4⟩
        · simp only [collapseRuns, hx, hb, Bool.and_self, if_true] at h
          rcases ih h with h1 | ⟨h2, h3⟩
          · exact Or.inl h1
          · exact Or.inr ⟨List.mem_cons_of_mem x h2, h3⟩

theorem head?_collapseRuns (p : Char → Bool) (c : Char) (l : List Char) :
    (collapseRuns p c l).head? = l.head?.map fun a => if p a then c else a := by
  induction l with
  | nil => rfl
  | cons a tl ih =>
    cases tl with
    | nil => cases ha : p a <;> simp [collapseRuns, ha]
    | cons b rest =>
      cases ha : p a
      · simp only [collapseRuns, ha, Bool.false_and, Bool.false_eq_true,
          if_false]
        simp [ha]
      · cases hb : p b
        · simp only [collapseRuns, ha, hb, Bool.true_and, Bool.false_eq_true,
            if_false, if_true]
          simp [ha]
        · simp only [collapseRuns, ha, hb, Bool.and_self, if_true]
          rw [ih]
          simp [ha, hb]

theorem noAdj_collapseRuns (p : Char → Bool) (c : Char) (l : List Char) :
    NoAdj p (collapseRuns p c l) := by
  induction l with
  | nil => exact List.chain'_nil
  | cons a tl ih =>
    cases tl with
    | nil =>
      simp only [collapseRuns]
      split <;> exact List.chain'_singleton _
    | cons b rest =>
      cases ha : p a
      · simp only [collapseRuns, ha, Bool.false_and, Bool.false_eq_true,
          if_false]
        refine List.chain'_cons'.mpr ⟨?_, ih⟩
        intro y _ hpa _
        rw [ha] at hpa
        exact Bool.false_ne_true hpa
      · cases hb : p b
        · simp only [collapseRuns, ha, hb, Bool.true_and, Bool.false_eq_true,
            if_false, if_true]
          refine List.chain'_cons'.mpr ⟨?_, ih⟩
          intro y hy
          rw [head?_collapseRuns] at hy
          simp only [List.head?_cons, Option.map_some', hb, Bool.false_eq_true,
            if_false, Option.mem_def, Option.some.injEq] at hy
          subst hy
          intro _ hpy
          rw [hb] at hpy
          exact Bool.false_ne_true hpy
        · simpa only [collapseRuns, ha, hb, Bool.and_self, if_true] using ih

theorem collapseRuns_eq_self_of_noAdj (p : Char → Bool) (c : Char) (l : List Char)
    (hadj : NoAdj p l) (hc : ∀ a ∈ l, p a = true → a = c) :
    collapseRuns p c l = l := by
  induction l with
  | nil => rfl
  | cons a tl ih =>
    cases tl with
    | nil =>
      simp only [collapseRuns]
      split
      · rename_i hp
        rw [hc a (by simp) hp]
      · rfl
    | cons b rest =>
      have hna : ¬(p a = true ∧ p b = true) := by
        intro ⟨h1, h2⟩
        exact (List.chain'_cons.mp hadj).1 h1 h2
      have hrest : NoAdj p (b :: rest) := (List.chain'_cons.mp hadj).2
      have hrec := ih hrest fun x hx hp => hc x (List.mem_cons_of_mem a hx) hp
      cases ha : p a
      · simp only [collapseRuns, ha, Bool.false_and, Bool.false_eq_true,
          if_false, hrec]
      · have hb : p b = false := by
          cases hpb : p b
          · rfl
          · exact absurd ⟨ha, hpb⟩ hna
        simp only [collapseRuns, ha, hb, Bool.true_and, Bool.false_eq_true,
          if_false, if_true, hrec, List.cons.injEq]
        exact ⟨(hc a (by simp) ha).symm, trivial⟩

/-! ### Lemmas about `stripEnds`, `take`, membership -/

theorem isCrLf_imp_ws (c : Char) (h : isCrLf c = true) : isPyWs c = true := by
  simp only [isCrLf, Bool.or_eq_true, beq_iff_eq] at h
  rcases h with h | h <;> subst h <;> decide

theorem mem_dropWhile (p : Char → Bool) (l : List Char) (a : Char)
    (h : a ∈ l.dropWhile p) : a ∈ l :=
  (List.dropWhile_sublist p).subset h

theorem rstripP_isPrefixOfSelf (p : Char → Bool) (l : List Char) : rstripP p l <+: l := by
  obtain ⟨t, ht⟩ := List.dropWhile_suffix (l := l.reverse) p
  exact ⟨t.reverse, by rw [rstripP, ← List.reverse_append, ht, List.reverse_reverse]⟩

theorem mem_rstripP (p : Char → Bool) (l : List Char) (a : Char)
    (h : a ∈ rstripP p l) : a ∈ l :=
  (rstripP_isPrefixOfSelf p l).subset h

theorem mem_stripEnds (p : Char → Bool) (l : List Char) (a : Char)
    (h : a ∈ stripEnds p l) : a ∈ l :=
  mem_dropWhile p l a (mem_rstripP p _ a h)

theorem noAdj_reverse (p : Char → Bool) (l : List Char) (h : NoAdj p l) :
    NoAdj p l.reverse := by
  refine List.chain'_reverse.mpr (h.imp ?_)
  intro a b hab h1 h2
  exact hab h2 h1

theorem noAdj_dropWhile (p q : Char → Bool) (l : List Char) (h : NoAdj p l) :
    NoAdj p (l.dropWhile q) :=
  h.suffix (List.dropWhile_suffix q)

theorem noAdj_rstripP (p q : Char → Bool) (l : List Char) (h : NoAdj p l) :
    NoAdj p (rstripP q l) :=
  noAdj_reverse p _ (noAdj_dropWhile p q l.reverse (noAdj_reverse p l h))

theorem noAdj_take (p : Char → Bool) (n : Nat) (l : List Char) (h : NoAdj p l) :
    NoAdj p (l.take n) :=
  h.prefix (List.take_prefix n l)

theorem head?_dropWhile_not (p : Char → Bool) (l : List Char) (a : Char)
    (h : (l.dropWhile p).head? = some a) : p a = false := by
  induction l with
  | nil => simp at h
  | cons x tl ih =>
    rw [List.dropWhile_cons] at h
    split at h
    · exact ih h
    · rename_i hx
      simp only [List.head?_cons, Option.some.injEq] at h
      subst h
      simpa using hx

theorem getLast?_rstripP_not (p : Char → Bool) (l : List Char) (a : Char)
    (h : (rstripP p l).getLast? = some a) : p a = false := by
  rw [rstripP, List.getLast?_reverse] at h
  exact head?_dropWhile_not p l.reverse a h

theorem head?_of_isPrefix (l₁ l₂ : List Char) (h : l₁ <+: l₂) (a : Char)
    (ha : l₁.head? = some a) : l₂.head? = some a := by
  obtain ⟨t, rfl⟩ := h
  cases l₁ with
  | nil => simp at ha
  | cons x tl => simpa using ha

theorem head?_take_eq (n : Nat) (l : List Char) (a : Char)
    (h : (l.take n).head? = some a) : l.head? = some a :=
  head?_of_isPrefix _ l (List.take_prefix n l) a h

theorem dropWhile_eq_self_of_head (p : Char → Bool) (l : List Char)
    (h : ∀ a, l.head? = some a → p a = false) : l.dropWhile p = l := by
  cases l with
  | nil => rfl
  | cons x tl =>
    rw [List.dropWhile_cons, if_neg]
    simp [h x rfl]

theorem map_eq_self_of_mem (f : Char → Char) (l : List Char)
    (h : ∀ a ∈ l, f a = a) : l.map f = l := by
  induction l with
  | nil => rfl
  | cons x tl ih =>
    rw [List.map_cons, h x (by simp), ih fun a ha => h a (List.mem_cons_of_mem x ha)]

/-! ### Structure of sanitizer output -/

theorem sanitizeList_chars (l : List Char) :
    ∀ a ∈ sanitizeList l, isPyWs a = false ∧ isInvalidFileChar a = false := by
  intro a ha
  have hu1 : isPyWs '_' = false := by decide
  have hu2 : isInvalidFileChar '_' = false := by decide
  rw [sanitizeList] at ha
  have h4 := mem_stripEnds _ _ a (List.take_subset _ _ ha)
  rcases mem_collapseRuns _ _ _ a h4 with rfl | ⟨h3, _⟩
  · exact ⟨hu1, hu2⟩
  rcases mem_collapseRuns _ _ _ a h3 with rfl | ⟨h2, hws⟩
  · exact ⟨hu1, hu2⟩
  refine ⟨hws, ?_⟩
  rcases List.mem_map.mp h2 with ⟨b, _, hb⟩
  by_cases hinv : isInvalidFileChar b = true
  · rw [if_pos hinv] at hb
    rw [← hb]
    exact hu2
  · rw [if_neg hinv] at hb
    rw [← hb]
    simpa using hinv

theorem noAdj_sanitizeList (l : List Char) :
    NoAdj (fun c => c == '_') (sanitizeList l) := by
  rw [sanitizeList]
  apply noAdj_take
  rw [stripEnds]
  apply noAdj_rstripP
  apply noAdj_dropWhile
  exact noAdj_collapseRuns _ _ _

theorem head?_sanitizeList (l : List Char) (a : Char)
    (h : (sanitizeList l).head? = some a) : (a == '_') = false := by
  rw [sanitizeList] at h
  have h5 := head?_take_eq _ _ a h
  rw [stripEnds] at h5
  have h6 := head?_of_isPrefix _ _ (rstripP_isPrefixOfSelf _ _) a h5
  exact head?_dropWhile_not _ _ a h6

theorem length_sanitizeList_le (l : List Char) : (sanitizeList l).length ≤ 50 := by
  rw [sanitizeList]
  exact List.length_take_le 50 _

theorem sanitizeList_sanitizeList (l : List Char) :
    sanitizeList (sanitizeList l) =
      rstripP (fun c => c == '_') (sanitizeList l) := by
  have hchars := sanitizeList_chars l
  have hnadj := noAdj_sanitizeList l
  conv_lhs => rw [sanitizeList]
  rw [collapseRuns_eq_self isCrLf ' ' _ ?hcr]
  case hcr =>
    intro a ha
    cases hc : isCrLf a
    · rfl
    · have := isCrLf_imp_ws a hc
      rw [(hchars a ha).1] at this
      exact absurd this (by simp)
  rw [map_eq_self_of_mem _ _ ?hmap]
  case hmap =>
    intro a ha
    rw [if_neg (by simp [(hchars a ha).2])]
  rw [collapseRuns_eq_self isPyWs '_' _ fun a ha => (hchars a ha).1]
  rw [collapseRuns_eq_self_of_noAdj _ '_' _ hnadj ?hc2]
  case hc2 =>
    intro a _ hpa
    simpa using hpa
  rw [stripEnds, dropWhile_eq_self_of_head _ _ (head?_sanitizeList l)]
  apply List.take_of_length_le
  exact le_trans (rstripP_isPrefixOfSelf _ _).length_le (length_sanitizeList_le l)

/-! ### Claim C1 -/

/-- **C1** (corrected).  Applying `sanitize_for_filename` twice equals applying
it once and removing any trailing underscore: the final 50-character
truncation can expose a trailing `_` that only the second application strips,
so the six-step `sanitize` is idempotent exactly when its output does not end
in `_`. -/
theorem sanitize_idem_up_to_trailing_underscore (x : String) :
    sanitize_for_filename (some (sanitize_for_filename (some x))) =
      String.mk (rstripP (fun c => c == '_') (sanitize_for_filename (some x)).data) := by
  by_cases hx : x.data.isEmpty
  · simp only [sanitize_for_filename, hx, if_true]
    rfl
  · simp only [sanitize_for_filename, hx, if_false, Bool.false_eq_true]
    by_cases hy : (sanitizeList x.data).isEmpty
    · rw [List.isEmpty_iff] at hy
      simp only [hy]
      rfl
    · have hd : (String.mk (sanitizeList x.data)).data = sanitizeList x.data := rfl
      simp only [hd, hy, Bool.false_eq_true, if_false]
      rw [sanitizeList_sanitizeList]

/-- **C1** counterexample input: 49 `a` characters, an underscore, then `b`
(51 characters in total). -/
def c1Input : String := ⟨List.replicate 49 'a' ++ ['_', 'b']⟩

/-- **C1** (counterexample to the claim as stated).  `sanitize` is not
idempotent: on the 51-character input `aa…a_b` one application yields 49 `a`s
followed by a trailing `_` (truncation cuts the `b`), and a second
application strips that underscore. -/
theorem sanitize_not_idempotent_cex :
    sanitize_for_filename (some (sanitize_for_filename (some c1Input))) ≠
      sanitize_for_filename (some c1Input) := by decide

/-! ### A small backtracking regex matcher

Tokens for the regular-expression fragment used by `main.py`; each source
regex is transliterated token-by-token below. -/

/-- `cls p lo hi lz` is a character-class quantifier `[p]{lo,hi}` (`hi = none`
meaning unbounded), greedy when `lz = false` and lazy when `lz = true`;
`lit s ci` is a literal (case-insensitive when `ci = true`); `alt2 a b` is
ordered alternation preferring `a`; `openG`/`closeG` delimit the non-nested
capturing groups; `bdry` is the word boundary `\b`. -/
inductive RTok where
  | cls (p : Char → Bool) (lo : Nat) (hi : Option Nat) (lz : Bool)
  | lit (s : List Char) (ci : Bool)
  | alt2 (a b : List RTok)
  | openG
  | closeG
  | bdry

/-- Character comparison, optionally ASCII-case-insensitive
(`re.IGNORECASE`). -/
def ciChar (ci : Bool) (pc c : Char) : Bool :=
  if ci then asciiLower pc == asciiLower c else pc == c

/-- Does the literal `ps` match a prefix of `cs` (under `ci`)? -/
def ciPrefix (ci : Bool) : List Char → List Char → Bool
  | [], _ => true
  | _ :: _, [] => false
  | pc :: ps, c :: cs => ciChar ci pc c && ciPrefix ci ps cs

def isWordOpt : Option Char → Bool
  | none => false
  | some c => isPyWord c

/-- Python `\b`: exactly one side of the position is a word character. -/
def atBoundary (prev next : Option Char) : Bool :=
  isWordOpt prev != isWordOpt next

/-- The last character of `consumed` if any, else the incoming `prev`. -/
def lastOr (prev : Option Char) (consumed : List Char) : Option Char :=
  match consumed.getLast? with
  | some c => some c
  | none => prev

/-- Candidate consumption lengths for a class quantifier, in backtracking
order: capped by the leading run length `run`, descending from the cap when
greedy, ascending from `lo` when lazy. -/
def clsCands (lo : Nat) (hi : Option Nat) (lz : Bool) (run : Nat) : List Nat :=
  let mx := match hi with
    | none => run
    | some h => min h run
  if mx < lo then []
  else if lz then (List.range (mx + 1 - lo)).map (lo + ·)
  else (List.range (mx + 1 - lo)).map (mx - ·)

/-- The backtracking matcher.  `prev` is the character before the current
position (for `\b`), `acc0` the match so far (group 0), `op` the currently
open capture, `done` the completed captures (most recent first).  Returns the
whole consumed match and the captures in order.  `fuel` bounds the recursion
depth; one unit is spent per token step, so any fuel above the flattened
token count of the pattern is enough (the callers use generous constants). -/
def M : Nat → Option Char → List Char → Option (List Char) → List (List Char) →
    List RTok → List Char → Option (List Char × List (List Char))
  | 0, _, _, _, _, _, _ => none
  | fuel + 1, prev, acc0, op, done, ts, s =>
    match ts with
    | [] => some (acc0, done.reverse)
    | .bdry :: ts =>
      if atBoundary prev s.head? then M fuel prev acc0 op done ts s else none
    | .openG :: ts => M fuel prev acc0 (some []) done ts s
    | .closeG :: ts => M fuel prev acc0 none (op.getD [] :: done) ts s
    | .lit str ci :: ts =>
      if ciPrefix ci str s then
        let consumed := s.take str.length
        M fuel (lastOr prev consumed) (acc0 ++ consumed)
          (op.map (· ++ consumed)) done ts (s.drop str.length)
      else none
    | .cls p lo hi lz :: ts =>
      firstSome (fun t =>
        let consumed := s.take t
        M fuel (lastOr prev consumed) (acc0 ++ consumed)
          (op.map (· ++ consumed)) done ts (s.drop t))
        (clsCands lo hi lz (countLeading p s))
    | .alt2 a b :: ts =>
      (M fuel prev acc0 op done (a ++ ts) s).orElse fun _ =>
        M fuel prev acc0 op done (b ++ ts) s

/-- `re.search`: try the pattern at successive start positions (leftmost
match wins), threading the previous character for `\b`.  Returns the whole
match, the captures, and the text after the match. -/
def searchFrom (fuel : Nat) (ts : List RTok) :
    Option Char → List Char → Option (List Char × List (List Char) × List Char)
  | prev, s =>
    match M fuel prev [] none [] ts s with
    | some (w, gs) => some (w, gs, s.drop w.length)
    | none =>
      match s with
      | [] => none
      | c :: rest => searchFrom fuel ts (some c) rest

/-- `re.search` returning just the captured groups. -/
def rsearch (fuel : Nat) (ts : List RTok) (s : List Char) :
    Option (List (List Char)) :=
  (searchFrom fuel ts none s).map fun r => r.2.1

/-- `re.finditer`: all non-overlapping matches, scanning left to right.
Every pattern it is used on consumes at least one character per match, so
the empty-match guard is never hit; `iterFuel` is passed as `s.length + 1`. -/
def findIter (fuel : Nat) (ts : List RTok) :
    Nat → Option Char → List Char → List (List Char × List (List Char))
  | 0, _, _ => []
  | iterFuel + 1, prev, s =>
    match searchFrom fuel ts prev s with
    | none => []
    | some (w, gs, rest) =>
      (w, gs) :: (if w.isEmpty then [] else findIter fuel ts iterFuel (lastOr prev w) rest)

/-! ### The Date Extractor (`extract_date`, main.py:156-248) -/

/-- `\s*` -/
def wsStar : RTok := .cls isPyWs 0 none false

/-- The separator class dot/hyphen/slash/comma (written `[.§-§/,]` in the source with `§` removed). -/
def sepCls : RTok :=
  .cls (fun c => c == '.' || c == '-' || c == '/' || c == ',') 1 (some 1) false

/-- `(\d{lo,hi})` as a capturing group. -/
def dGrp (lo hi : Nat) : List RTok :=
  [.openG, .cls isDigitC lo (some hi) false, .closeG]

/-- `([A-Z]{3,9})` under `re.IGNORECASE`, as a capturing group. -/
def monGrp : List RTok := [.openG, .cls isAsciiLetter 3 (some 9) false, .closeG]

/-- `([A-Z]{3,9})\s*SEP\s*(\d{1,2})\s*SEP\s*(\d{4})` where `SEP` is the dot/hyphen/slash/comma class -/
def engPat1 : List RTok :=
  monGrp ++ [wsStar, sepCls, wsStar] ++ dGrp 1 2 ++ [wsStar, sepCls, wsStar] ++ dGrp 4 4

/-- `(\d{1,2})\s*SEP\s*([A-Z]{3,9})\s*SEP\s*(\d{4})` with the same separator class -/
def engPat2 : List RTok :=
  dGrp 1 2 ++ [wsStar, sepCls, wsStar] ++ monGrp ++ [wsStar, sepCls, wsStar] ++ dGrp 4 4

/-- `(\d{4})\s*SEP\s*([A-Z]{3,9})\s*SEP\s*(\d{1,2})` with the same separator class -/
def engPat3 : List RTok :=
  dGrp 4 4 ++ [wsStar, sepCls, wsStar] ++ monGrp ++ [wsStar, sepCls, wsStar] ++ dGrp 1 2

/-- `(\d{4})年(\d{1,2})月(\d{1,2})日` -/
def jpPatYmd : List RTok :=
  dGrp 4 4 ++ [.lit "年".data true] ++ dGrp 1 2 ++ [.lit "月".data true] ++
    dGrp 1 2 ++ [.lit "日".data true]

/-- `(\d{4})[/](\d{1,2})[/](\d{1,2})` -/
def jpPatSlash : List RTok :=
  dGrp 4 4 ++ [.lit "/".data true] ++ dGrp 1 2 ++ [.lit "/".data true] ++ dGrp 1 2

/-- `(\d{4})-(\d{1,2})-(\d{1,2})` -/
def jpPatDash : List RTok :=
  dGrp 4 4 ++ [.lit "-".data true] ++ dGrp 1 2 ++ [.lit "-".data true] ++ dGrp 1 2

/-- `令和(\d{1,2})年(\d{1,2})月(\d{1,2})日` -/
def jpPatReiwa : List RTok :=
  [.lit "令和".data true] ++ dGrp 1 2 ++ [.lit "年".data true] ++ dGrp 1 2 ++
    [.lit "月".data true] ++ dGrp 1 2 ++ [.lit "日".data true]

/-- `R(\d{1,2})\.(\d{1,2})\.(\d{1,2})` (case-insensitive, so also `r`). -/
def jpPatR : List RTok :=
  [.lit "R".data true] ++ dGrp 1 2 ++ [.lit ".".data true] ++ dGrp 1 2 ++
    [.lit ".".data true] ++ dGrp 1 2

/-- `平成(\d{1,2})年(\d{1,2})月(\d{1,2})日` -/
def jpPatHeisei : List RTok :=
  [.lit "平成".data true] ++ dGrp 1 2 ++ [.lit "年".data true] ++ dGrp 1 2 ++
    [.lit "月".data true] ++ dGrp 1 2 ++ [.lit "日".data true]

/-- The `month_map` dictionary (abbreviations and full names). -/
def monthMap (s : List Char) : Option Nat :=
  if s = "JAN".data then some 1 else if s = "FEB".data then some 2
  else if s = "MAR".data then some 3 else if s = "APR".data then some 4
  else if s = "MAY".data then some 5 else if s = "JUN".data then some 6
  else if s = "JUL".data then some 7 else if s = "AUG".data then some 8
  else if s = "SEP".data then some 9 else if s = "OCT".data then some 10
  else if s = "NOV".data then some 11 else if s = "DEC".data then some 12
  else if s = "JANUARY".data then some 1 else if s = "FEBRUARY".data then some 2
  else if s = "MARCH".data then some 3 else if s = "APRIL".data then some 4
  else if s = "JUNE".data then some 6 else if s = "JULY".data then some 7
  else if s = "AUGUST".data then some 8 else if s = "SEPTEMBER".data then some 9
  else if s = "OCTOBER".data then some 10 else if s = "NOVEMBER".data then some 11
  else if s = "DECEMBER".data then some 12 else none

/-- Python `int()` on a string of ASCII digits. -/
def natOfDigits (l : List Char) : Nat :=
  l.foldl (fun n c => 10 * n + (c.toNat - 48)) 0

/-- Digit-extraction helper, structurally recursive on `fuel` so that it
evaluates by kernel reduction; for `n ≤ fuel` it produces the decimal digit
string of `n` (empty for `n = 0`). -/
def natReprAux : Nat → Nat → List Char
  | 0, _ => []
  | fuel + 1, n =>
    if n = 0 then [] else natReprAux fuel (n / 10) ++ [Char.ofNat (48 + n % 10)]

/-- Python `str(n)` for a natural number (decimal digits, no sign). -/
def natRepr (n : Nat) : List Char :=
  if n = 0 then ['0'] else natReprAux (n + 1) n

/-- Python `f"{n:02d}"`: decimal, left-padded with `0` to width two. -/
def pad2 (n : Nat) : List Char := if n < 10 then '0' :: natRepr n else natRepr n

/-- `f"{year % 100:02d}-{month:02d}-{day:02d}"` (main.py:212, 246). -/
def fmtDate (year month day : Nat) : String :=
  ⟨pad2 (year % 100) ++ '-' :: (pad2 month ++ '-' :: pad2 day)⟩

/-- Fuel amply covering the flattened token count of every date pattern. -/
def dateFuel : Nat := 400

/-- English-pattern conversion (main.py:193-212): look the month name up in
`month_map`, convert day/year with `int`, and apply the
`if year and month and day` truthiness check. -/
def engConv (ms ds ys : List Char) : Option (Nat × Nat × Nat) :=
  match monthMap (ms.map asciiUpper) with
  | none => none
  | some m =>
    if natOfDigits ys ≠ 0 ∧ natOfDigits ds ≠ 0 then
      some (natOfDigits ys, m, natOfDigits ds)
    else none

/-- One English pattern attempt (main.py:190-212): on a match, permute the
groups into (month-name, day, year) order and convert. -/
def tryEngPat (cs : List Char) (pat : List RTok)
    (permute : List Char → List Char → List Char →
      List Char × List Char × List Char) : Option String :=
  match rsearch dateFuel pat cs with
  | some [a, b, c] =>
    (engConv (permute a b c).1 (permute a b c).2.1 (permute a b c).2.2).map
      fun r => fmtDate r.1 r.2.1 r.2.2
  | _ => none

/-- One Japanese/numeric pattern attempt (main.py:230-246): on a match,
convert the era year and return unconditionally. -/
def tryJpPat (cs : List Char) (pat : List RTok) (era : Nat → Nat) : Option String :=
  match rsearch dateFuel pat cs with
  | some [a, b, c] =>
    some (fmtDate (era (natOfDigits a)) (natOfDigits b) (natOfDigits c))
  | _ => none

/-- `extract_date` (main.py:156-248): three English month-name layouts (with
the truthiness check, falling through on failure), then the six
Japanese/numeric layouts (returning unconditionally on match), first match
wins; output `YY-MM-DD`. -/
def extract_date (text : String) : Option String :=
  (tryEngPat text.data engPat1 fun a b c => (a, b, c)).orElse fun _ =>
  (tryEngPat text.data engPat2 fun a b c => (b, a, c)).orElse fun _ =>
  (tryEngPat text.data engPat3 fun a b c => (b, c, a)).orElse fun _ =>
  (tryJpPat text.data jpPatYmd id).orElse fun _ =>
  (tryJpPat text.data jpPatSlash id).orElse fun _ =>
  (tryJpPat text.data jpPatDash id).orElse fun _ =>
  (tryJpPat text.data jpPatReiwa (2018 + ·)).orElse fun _ =>
  (tryJpPat text.data jpPatR (2018 + ·)).orElse fun _ =>
  tryJpPat text.data jpPatHeisei (1988 + ·)

/-! ### The Material Extractor (`extract_material`, main.py:251-296)

All patterns run under `re.IGNORECASE` and have the shape `\b(...)\b`. -/

/-- Non-capturing `\d{lo,hi}`. -/
def dCls (lo hi : Nat) : RTok := .cls isDigitC lo (some hi) false

/-- A character class given by its uppercase members, under `re.IGNORECASE`. -/
def ciCls (chars : List Char) (lo hi : Nat) : RTok :=
  .cls (fun c => chars.contains (asciiUpper c)) lo (some hi) false

/-- `[A-Z]{lo,hi}` under `re.IGNORECASE`. -/
def letCls (lo hi : Nat) : RTok := .cls isAsciiLetter lo (some hi) false

/-- `\b(SS\s*[234]\d{2})\b` -/
def matPat1 : List RTok :=
  [.bdry, .openG, .lit "SS".data true, wsStar, ciCls "234".data 1 1, dCls 2 2,
   .closeG, .bdry]

/-- `\b(SPH[CDE]|SPC[CDE])\b` -/
def matPat2 : List RTok :=
  [.bdry, .openG,
   .alt2 [.lit "SPH".data true, ciCls "CDE".data 1 1]
         [.lit "SPC".data true, ciCls "CDE".data 1 1],
   .closeG, .bdry]

/-- `\b(SEC[CD])\b` -/
def matPat3 : List RTok :=
  [.bdry, .openG, .lit "SEC".data true, ciCls "CD".data 1 1, .closeG, .bdry]

/-- `\b(SG[CH]C)\b` -/
def matPat4 : List RTok :=
  [.bdry, .openG, .lit "SG".data true, ciCls "CH".data 1 1, .lit "C".data true,
   .closeG, .bdry]

/-- `\b(S\d{2}C)\b` -/
def matPat5 : List RTok :=
  [.bdry, .openG, .lit "S".data true, dCls 2 2, .lit "C".data true, .closeG, .bdry]

/-- `\b(SCM\d{3})\b` -/
def matPat6 : List RTok :=
  [.bdry, .openG, .lit "SCM".data true, dCls 3 3, .closeG, .bdry]

/-- `\b(SUS\s*\d{3}[A-Z]?)\b` -/
def matPat7 : List RTok :=
  [.bdry, .openG, .lit "SUS".data true, wsStar, dCls 3 3, letCls 0 1,
   .closeG, .bdry]

/-- `\b(SK\d{1,2})\b` -/
def matPat8 : List RTok :=
  [.bdry, .openG, .lit "SK".data true, dCls 1 2, .closeG, .bdry]

/-- `\b(SM\d{3}[A-C]?)\b` -/
def matPat9 : List RTok :=
  [.bdry, .openG, .lit "SM".data true, dCls 3 3, ciCls "ABC".data 0 1,
   .closeG, .bdry]

/-- `\b(STK\d{3})\b` -/
def matPat10 : List RTok :=
  [.bdry, .openG, .lit "STK".data true, dCls 3 3, .closeG, .bdry]

/-- `\b(STKR\d{3})\b` -/
def matPat11 : List RTok :=
  [.bdry, .openG, .lit "STKR".data true, dCls 3 3, .closeG, .bdry]

/-- `\b(S[A-Z]{1,3}\d{2,3}[A-Z]?)\b` (generic catch-all). -/
def matPat12 : List RTok :=
  [.bdry, .openG, .lit "S".data true, letCls 1 3, .cls isDigitC 2 (some 3) false,
   letCls 0 1, .closeG, .bdry]

/-- The ordered material pattern list. -/
def matPats : List (List RTok) :=
  [matPat1, matPat2, matPat3, matPat4, matPat5, matPat6, matPat7, matPat8,
   matPat9, matPat10, matPat11, matPat12]

def matFuel : Nat := 400

/-- `extract_material`: first pattern (in order) with a match wins; the
captured grade is upper-cased and spaces are removed
(`match.group(1).upper().replace(' ', '')`). -/
def extract_material (text : String) : Option String :=
  firstSome (fun pat =>
    match rsearch matFuel pat text.data with
    | some [g] => some ⟨(g.map asciiUpper).filter fun c => c != ' '⟩
    | _ => none)
    matPats

/-! ### Python `float` on decimal literals, with exact rationals -/

/-- Python `float(s)` modelled on finite decimal literals: optional
whitespace, optional sign, `digits`, `digits.`, `digits.digits` or
`.digits`.  (Exponent/`inf`/`nan`/underscore forms are never produced by the
regex groups this is applied to.)  Exact rationals stand in for IEEE
doubles; no comparison made by `is_valid_dimension` is close enough to a
rounding boundary for the difference to show at the precision the regex
groups can carry.  The value `sign * (intpart + frac / 10 ^ k)` is built as a
single `mkRat` so that it evaluates by kernel reduction. -/
def pyFloat (s : String) : Option ℚ :=
  let cs := stripEnds isPyWs s.data
  let signAndRest : Int × List Char :=
    match cs with
    | '-' :: rest => (-1, rest)
    | '+' :: rest => (1, rest)
    | _ => (1, cs)
  let sign := signAndRest.1
  let body := signAndRest.2
  let intPart := body.takeWhile isDigitC
  let rest := body.dropWhile isDigitC
  match rest with
  | [] =>
    if intPart.isEmpty then none else some (mkRat (sign * natOfDigits intPart) 1)
  | '.' :: frac =>
    if frac.all isDigitC ∧ (intPart ≠ [] ∨ frac ≠ []) then
      some (mkRat
        (sign * (natOfDigits intPart * 10 ^ frac.length + natOfDigits frac))
        (10 ^ frac.length))
    else none
  | _ => none

/-! ### The Dimension Extractor (`extract_dimensions`, main.py:299-403) -/

/-- `is_valid_dimension(thickness_str, width_str, length_str=None)`
(main.py:316-343): thickness in `[0.1, 100]`, width in `[100, 5000]` and
strictly above thickness; a length that is present, non-empty and not the
`COIL`/`コイル`/`C` token must not parse numerically below 100 (an
unparseable length is tolerated); commas are removed before parsing; any
parse failure of thickness or width yields `False`. -/
def is_valid_dimension (thickness_str width_str : String)
    (length_str : Option String) : Bool :=
  match pyFloat ⟨thickness_str.data.filter fun c => c != ','⟩,
        pyFloat ⟨width_str.data.filter fun c => c != ','⟩ with
  | some thickness, some width =>
    if thickness < mkRat 1 10 || thickness > 100 then false
    else if width < 100 || width > 5000 then false
    else if width ≤ thickness then false
    else
      match length_str with
      | none => true
      | some ls =>
        if ls.data.isEmpty then true
        else
          let lu := ls.data.map asciiUpper
          if lu = "COIL".data ∨ lu = "コイル".data ∨ lu = "C".data then true
          else
            match pyFloat ⟨ls.data.filter fun c => c != ','⟩ with
            | some len => if len < 100 then false else true
            | none => true
  | _, _ => false

/-- `\d+\.?\d*` (a decimal number). -/
def numToks : List RTok :=
  [.cls isDigitC 1 none false, .cls (fun c => c == '.') 0 (some 1) false,
   .cls isDigitC 0 none false]

/-- `(\d+\.?\d*)` as a capturing group. -/
def numGrp : List RTok := .openG :: numToks ++ [.closeG]

/-- `[x×X]` (also lowercase by `re.IGNORECASE`). -/
def xCls : RTok :=
  .cls (fun c => c == 'x' || c == 'X' || c == '×') 1 (some 1) false

/-- `(\d{1,2},\d{3})` (comma-grouped width). -/
def commaNumGrp : List RTok :=
  [.openG, dCls 1 2, .cls (fun c => c == ',') 1 (some 1) false, dCls 3 3, .closeG]

/-- `(COIL|コイル|C)` as a capturing group. -/
def coilGrp : List RTok :=
  [.openG,
   .alt2 [.lit "COIL".data true] [.alt2 [.lit "コイル".data true] [.lit "C".data true]],
   .closeG]

/-- `(\d+\.?\d*)\s*[x×X]\s*(\d{1,2},\d{3})\s*[x×X]\s*(COIL|コイル|C)\b` -/
def dimPat1 : List RTok :=
  numGrp ++ [wsStar, xCls, wsStar] ++ commaNumGrp ++ [wsStar, xCls, wsStar] ++
    coilGrp ++ [.bdry]

/-- `(\d+\.?\d*)\s*[x×X]\s*(\d{3,4})\s*[x×X]\s*(COIL|コイル|C)\b` -/
def dimPat2 : List RTok :=
  numGrp ++ [wsStar, xCls, wsStar, .openG, .cls isDigitC 3 (some 4) false, .closeG,
    wsStar, xCls, wsStar] ++ coilGrp ++ [.bdry]

/-- `(\d+\.?\d*)\s*[x×X]\s*(\d{3,4})\s*[x×X]\s*(\d{3,4})` -/
def dimPat3 : List RTok :=
  numGrp ++ [wsStar, xCls, wsStar, .openG, .cls isDigitC 3 (some 4) false, .closeG,
    wsStar, xCls, wsStar, .openG, .cls isDigitC 3 (some 4) false, .closeG]

/-- `(\d+\.?\d*)\s*[x×X]\s*(\d{1,2},\d{3})\s*[x×X]\s*(\d{3,4})` -/
def dimPat4 : List RTok :=
  numGrp ++ [wsStar, xCls, wsStar] ++ commaNumGrp ++
    [wsStar, xCls, wsStar, .openG, .cls isDigitC 3 (some 4) false, .closeG]

/-- `(\d+\.?\d*)\s*[x×X]\s*(\d+\.?\d*)\s*[x×X]\s*(COIL|コイル|C)\b` -/
def dimPat5 : List RTok :=
  numGrp ++ [wsStar, xCls, wsStar] ++ numGrp ++ [wsStar, xCls, wsStar] ++
    coilGrp ++ [.bdry]

/-- `t\s*(\d+\.?\d*)\s*[x×X]\s*(\d+\.?\d*)\s*[x×X]\s*(COIL|コイル|C|\d+\.?\d*)` -/
def dimPat6 : List RTok :=
  [.lit "t".data true, wsStar] ++ numGrp ++ [wsStar, xCls, wsStar] ++ numGrp ++
    [wsStar, xCls, wsStar, .openG,
     .alt2 [.lit "COIL".data true]
       [.alt2 [.lit "コイル".data true] [.alt2 [.lit "C".data true] numToks]],
     .closeG]

/-- `(\d+\.?\d*)\s*[x×X]\s*(\d+\.?\d*)\s*[x×X]\s*(\d+\.?\d*)` -/
def dimPat7 : List RTok :=
  numGrp ++ [wsStar, xCls, wsStar] ++ numGrp ++ [wsStar, xCls, wsStar] ++ numGrp

/-- `板厚\s*(\d+\.?\d*)\s*.*?幅\s*(\d+\.?\d*)` (lazy dot-star). -/
def dimPat8 : List RTok :=
  [.lit "板厚".data true, wsStar] ++ numGrp ++
    [wsStar, .cls (fun c => c != '\n') 0 none true, .lit "幅".data true, wsStar] ++
    numGrp

/-- `(\d+\.?\d*)\s*[tT]\s*[x×X]\s*(\d+\.?\d*)\s*[wW]?` -/
def dimPat9 : List RTok :=
  numGrp ++ [wsStar, .cls (fun c => c == 't' || c == 'T') 1 (some 1) false,
    wsStar, xCls, wsStar] ++ numGrp ++
    [wsStar, .cls (fun c => c == 'w' || c == 'W') 0 (some 1) false]

/-- The ordered dimension pattern list (main.py:353-372). -/
def dimPats : List (List RTok) :=
  [dimPat1, dimPat2, dimPat3, dimPat4, dimPat5, dimPat6, dimPat7, dimPat8, dimPat9]

/-- `(?:DIMENSIONS?|寸法)[^\n]*\n?([^\n]+)` (main.py:347). -/
def dimLabelPat : List RTok :=
  [.alt2 [.lit "DIMENSIONS".data true]
     [.alt2 [.lit "DIMENSION".data true] [.lit "寸法".data true]],
   .cls (fun c => c != '\n') 0 none false,
   .alt2 [.lit "\n".data true] [],
   .openG, .cls (fun c => c != '\n') 1 none false, .closeG]

def dimFuel : Nat := 600

/-- Process one regex match of the dimension loop (main.py:383-401):
3 groups give `thickness x width x length` (commas stripped from the width,
`COIL`/`コイル` normalized to `C`), 2 groups give `thickness x width`; the
match is accepted only if `is_valid_dimension` passes. -/
def dimProcessMatch (gs : List (List Char)) : Option String :=
  match gs with
  | [g0, g1, g2] =>
    let width := g1.filter fun c => c != ','
    if is_valid_dimension ⟨g0⟩ ⟨width⟩ (some ⟨g2⟩) then
      let lengthN :=
        if g2.map asciiUpper = "COIL".data ∨ g2.map asciiUpper = "コイル".data
        then ['C'] else g2
      some ⟨g0 ++ 'x' :: (width ++ 'x' :: lengthN)⟩
    else none
  | [g0, g1] =>
    let width := g1.filter fun c => c != ','
    if is_valid_dimension ⟨g0⟩ ⟨width⟩ none then
      some ⟨g0 ++ 'x' :: width⟩
    else none
  | _ => none

/-- One window of the dimension search: try the patterns in order over all
`finditer` matches; the first match passing validation wins. -/
def runDimPatterns (searchText : List Char) : Option String :=
  firstSome (fun pat =>
    firstSome (fun mg => dimProcessMatch mg.2)
      (findIter dimFuel pat (searchText.length + 1) none searchText))
    dimPats

/-- The `DIMENSIONS`/`寸法` window (`dim_match.group(0) + dim_match.group(1)`,
main.py:348-349). -/
def dimSectionOf (cs : List Char) : Option (List Char) :=
  match searchFrom dimFuel dimLabelPat none cs with
  | some (w, [g], _) => some (w ++ g)
  | _ => none

/-- `extract_dimensions`: restrict attention to the line(s) after a
`DIMENSIONS`/`寸法` label when present, falling back to the whole text. -/
def extract_dimensions (text : String) : Option String :=
  match dimSectionOf text.data with
  | some sec => (runDimPatterns sec).orElse fun _ => runDimPatterns text.data
  | none => runDimPatterns text.data

/-! ### The Charge-Number Extractor (`extract_charge_no`, main.py:406-433) -/

/-- `(?:溶[鋼銅]番号|CHARGE\s*N[oO]\.?|鋼番)\s*[:\s]*([A-Z0-9]{4,12})` -/
def chgPat1 : List RTok :=
  [.alt2 [.lit "溶".data true,
          .cls (fun c => c == '鋼' || c == '銅') 1 (some 1) false,
          .lit "番号".data true]
     [.alt2 [.lit "CHARGE".data true, wsStar, .lit "N".data true,
             .cls (fun c => c == 'o' || c == 'O') 1 (some 1) false,
             .cls (fun c => c == '.') 0 (some 1) false]
        [.lit "鋼番".data true]],
   wsStar, .cls (fun c => c == ':' || isPyWs c) 0 none false,
   .openG, .cls isPyAlnum 4 (some 12) false, .closeG]

/-- `\b([A-Z]{1,2}\d{4,8})\b` -/
def chgPat2 : List RTok :=
  [.bdry, .openG, letCls 1 2, .cls isDigitC 4 (some 8) false, .closeG, .bdry]

/-- `\b(\d{1,2}[A-Z]\d{4,6})\b` -/
def chgPat3 : List RTok :=
  [.bdry, .openG, dCls 1 2, letCls 1 1, .cls isDigitC 4 (some 6) false,
   .closeG, .bdry]

def chargeFuel : Nat := 400

/-- Python `str.isalnum()` (empty string is not alphanumeric). -/
def pyIsAlnumStr (l : List Char) : Bool := !l.isEmpty && l.all isPyAlnum

/-- `extract_charge_no`: first pattern whose upper-cased capture passes the
`4 <= len <= 12 and isalnum()` validation wins; a failed validation falls
through to the next pattern. -/
def extract_charge_no (text : String) : Option String :=
  firstSome (fun pat =>
    match rsearch chargeFuel pat text.data with
    | some [g] =>
      let charge := g.map asciiUpper
      if 4 ≤ charge.length ∧ charge.length ≤ 12 ∧ pyIsAlnumStr charge = true then
        some ⟨charge⟩
      else none
    | _ => none)
    [chgPat1, chgPat2, chgPat3]

/-! ### The Manufacturer Resolver (`extract_manufacturer`, main.py:436-468) -/

/-- `PRIORITY_MANUFACTURERS` (main.py:149-153). -/
def PRIORITY_MANUFACTURERS : List (String × List String) :=
  [("東京製鉄", ["東京製鉄", "東京製鐵", "東京製鉄所", "東京製鐵所",
                 "TOKYO STEEL", "TOKYOSTEEL"]),
   ("中山製鋼", ["中山製鋼", "中山製鉄", "中山製鋼所", "中山製鉄所",
                 "NAKAYAMA STEEL", "NAKAYAMA"]),
   ("神戸製鋼", ["神戸製鋼", "神戸製鉄", "神戸製鋼所", "神戸製鉄所",
                 "KOBE STEEL", "KOBELCO"])]

/-- The priority loop of `extract_manufacturer` (main.py:448-451):
`variant.upper() in text.upper()`, first table entry with any matching
variant wins.  `textU` is the upper-cased text. -/
def findPriority (textU : List Char) : Option String :=
  firstSome (fun entry =>
    if entry.2.any (fun v => containsSub (v.data.map asciiUpper) textU)
    then some entry.1 else none)
    PRIORITY_MANUFACTURERS

/-- `([^\s\n]{2,15}(?:製鉄|製鋼|製鐵))` (case-sensitive). -/
def mfPat1 : List RTok :=
  [.openG, .cls (fun c => !(isPyWs c || c == '\n')) 2 (some 15) false,
   .alt2 [.lit "製鉄".data false] [.alt2 [.lit "製鋼".data false] [.lit "製鐵".data false]],
   .closeG]

/-- `([^\s\n]{2,15}(?:株式会社|㈱))` (case-sensitive). -/
def mfPat2 : List RTok :=
  [.openG, .cls (fun c => !(isPyWs c || c == '\n')) 2 (some 15) false,
   .alt2 [.lit "株式会社".data false] [.lit "㈱".data false],
   .closeG]

/-- `(?:製造者|メーカー)[：:]\s*([^\n]+)` (case-sensitive). -/
def mfPat3 : List RTok :=
  [.alt2 [.lit "製造者".data false] [.lit "メーカー".data false],
   .cls (fun c => c == '：' || c == ':') 1 (some 1) false, wsStar,
   .openG, .cls (fun c => c != '\n') 1 none false, .closeG]

def manuFuel : Nat := 400

/-- `extract_manufacturer`: priority table first; otherwise the generic
company patterns in order, accepting a stripped name of length 2-20 and
falling through to the next pattern on a failed length check. -/
def extract_manufacturer (text : String) : Option String :=
  (findPriority (text.data.map asciiUpper)).orElse fun _ =>
    firstSome (fun pat =>
      match rsearch manuFuel pat text.data with
      | some [g] =>
        let name := stripEnds isPyWs g
        if 2 ≤ name.length ∧ name.length ≤ 20 then some ⟨name⟩ else none
      | _ => none)
      [mfPat1, mfPat2, mfPat3]

/-! ### The Document Parser (`parse_extracted_text`, main.py:471-493) -/

/-- The structured record (`ExtractedDocumentInfo` of the spec). -/
structure MillInfo where
  date : Option String
  material : Option String
  dimensions : Option String
  manufacturer : Option String
  charge_no : Option String
  raw_text : String
deriving Repr, DecidableEq

/-- `parse_extracted_text`: the five extractors run independently over the
same text; total by construction (the Python function raises nothing). -/
def parse_extracted_text (text : String) : MillInfo :=
  { date := extract_date text
    material := extract_material text
    dimensions := extract_dimensions text
    manufacturer := extract_manufacturer text
    charge_no := extract_charge_no text
    raw_text := text }

/-! ### Filename synthesis (`generate_new_filename`, main.py:527-566) -/

/-- Python truthiness of an optional string field (`if info.get(k):`). -/
def pyTruthy : Option String → Bool
  | none => false
  | some s => !s.data.isEmpty

/-- `pathlib` `stem`/`suffix` on a plain file name: split at the last dot
provided it is neither at index 0 nor the final character. -/
def pathSplit (name : List Char) : List Char × List Char :=
  let n := name.length
  match name.reverse.findIdx? fun c => c == '.' with
  | none => (name, [])
  | some j =>
    let i := n - 1 - j
    if 0 < i ∧ i < n - 1 then (name.take i, name.drop i) else (name, [])

def pathStem (name : String) : String := ⟨(pathSplit name.data).1⟩

def pathSuffix (name : String) : String := ⟨(pathSplit name.data).2⟩

/-- `generate_new_filename`: present fields in the fixed order
`[date, material, dimensions, manufacturer, charge_no]`, the date verbatim
and the other four sanitized, joined by `_` and suffixed `.pdf`; when no
field is present, `sanitize(stem(original)) + "_renamed.pdf"`. -/
def generate_new_filename (info : MillInfo) (original_name : String) : String :=
  let parts :=
    (if pyTruthy info.date then [info.date.getD ""] else []) ++
    (if pyTruthy info.material then [sanitize_for_filename info.material] else []) ++
    (if pyTruthy info.dimensions then [sanitize_for_filename info.dimensions] else []) ++
    (if pyTruthy info.manufacturer then [sanitize_for_filename info.manufacturer] else []) ++
    (if pyTruthy info.charge_no then [sanitize_for_filename info.charge_no] else [])
  if parts.isEmpty then
    sanitize_for_filename (some (pathStem original_name)) ++ "_renamed.pdf"
  else
    String.intercalate "_" parts ++ ".pdf"

/-! ### The Uniqueness Resolver (`get_unique_filename`, main.py:569-591) -/

/-- `f"{base}_{counter}{ext}"` -/
def uniqueName (base ext : String) (counter : Nat) : String :=
  base ++ "_" ++ ⟨natRepr counter⟩ ++ ext

/-- The `while` loop of `get_unique_filename`, fueled: try
`base_counter ++ ext` for `counter = 1, 2, …` until the existence predicate
fails. -/
def uniqueLoop (ex : String → Bool) (base ext : String) : Nat → Nat → Option String
  | 0, _ => none
  | fuel + 1, counter =>
    let name := uniqueName base ext counter
    if ex name then uniqueLoop ex base ext fuel (counter + 1) else some name

/-- `get_unique_filename` with the directory-existence test abstracted into
the predicate `ex` (the `(directory / final_name).exists()` oracle);
termination for finite directories is proved separately, so the fueled loop
is exact on sufficiently large fuel. -/
def get_unique_filename (ex : String → Bool) (filename : String) (fuel : Nat) :
    Option String :=
  if ex filename then
    uniqueLoop ex (pathStem filename) (pathSuffix filename) fuel 1
  else some filename

/-! ### Claim C5: the dimension plausibility predicate -/

/-- The length side-condition exactly as the specification phrases it: any
given length that is not the case-insensitive `COIL`/`コイル`/`C` token
either parses numerically (commas removed) to at least 100 or is
non-numeric. -/
def lenCondition (l : Option String) : Prop :=
  ∀ ls, l = some ls →
    ls.data.map asciiUpper ≠ "COIL".data →
    ls.data.map asciiUpper ≠ "コイル".data →
    ls.data.map asciiUpper ≠ "C".data →
    ∀ lq, pyFloat ⟨ls.data.filter fun c => c != ','⟩ = some lq → 100 ≤ lq

/-- `is_valid` as the specification describes it: thickness in `[0.1, 100]`,
width in `[100, 5000]` strictly above thickness, plus `lenCondition`. -/
def specIsValidDim (t w : String) (l : Option String) : Prop :=
  ∃ tq wq, pyFloat ⟨t.data.filter fun c => c != ','⟩ = some tq ∧
    pyFloat ⟨w.data.filter fun c => c != ','⟩ = some wq ∧
    mkRat 1 10 ≤ tq ∧ tq ≤ 100 ∧ 100 ≤ wq ∧ wq ≤ 5000 ∧ tq < wq ∧ lenCondition l

theorem lenCheck_eq_true_iff (l : Option String) :
    (match l with
      | none => true
      | some ls =>
        if ls.data.isEmpty then true
        else
          let lu := ls.data.map asciiUpper
          if lu = "COIL".data ∨ lu = "コイル".data ∨ lu = "C".data then true
          else
            match pyFloat ⟨ls.data.filter fun c => c != ','⟩ with
            | some len => if len < 100 then false else true
            | none => true) = true ↔ lenCondition l := by
  cases l with
  | none =>
    simp only [lenCondition]
    constructor
    · intro _ ls hls
      exact absurd hls (by simp)
    · intro _
      trivial
  | some ls =>
    by_cases hemp : ls.data.isEmpty
    · have hnil : ls.data = [] := by simpa using hemp
      simp only [hemp, if_true, lenCondition]
      constructor
      · intro _ ls2 hls2 _ _ _ lq hlq
        have : ls2 = ls := (Option.some.inj hls2).symm
        subst this
        rw [hnil] at hlq
        rw [show pyFloat ⟨List.filter (fun c => c != ',') []⟩ = none from rfl] at hlq
        cases hlq
      · intro _
        trivial
    · by_cases hcoil : ls.data.map asciiUpper = "COIL".data ∨
          ls.data.map asciiUpper = "コイル".data ∨ ls.data.map asciiUpper = "C".data
      · simp only [hemp, if_false, hcoil, if_true, Bool.false_eq_true, lenCondition]
        constructor
        · intro _ ls2 hls2 hc1 hc2 hc3 lq _
          have : ls2 = ls := (Option.some.inj hls2).symm
          subst this
          rcases hcoil with h | h | h
          · exact absurd h hc1
          · exact absurd h hc2
          · exact absurd h hc3
        · intro _
          trivial
      · cases hpf : pyFloat ⟨ls.data.filter fun c => c != ','⟩ with
        | none =>
          simp only [hemp, hcoil, if_false, hpf, Bool.false_eq_true, lenCondition]
          constructor
          · intro _ ls2 hls2 _ _ _ lq hlq
            have : ls2 = ls := (Option.some.inj hls2).symm
            subst this
            rw [hpf] at hlq
            cases hlq
          · intro _
            trivial
        | some len =>
          by_cases hlt : len < 100
          · simp only [hemp, hcoil, if_false, hpf, hlt, if_true, Bool.false_eq_true,
              lenCondition]
            constructor
            · intro h
              cases h
            · intro h
              have := h ls rfl ?_ ?_ ?_ len hpf
              · exact absurd this (by exact not_le.mpr hlt)
              · intro hc
                exact hcoil (Or.inl hc)
              · intro hc
                exact hcoil (Or.inr (Or.inl hc))
              · intro hc
                exact hcoil (Or.inr (Or.inr hc))
          · simp only [hemp, hcoil, if_false, hpf, hlt, Bool.false_eq_true,
              lenCondition]
            constructor
            · intro _ ls2 hls2 _ _ _ lq hlq
              have : ls2 = ls := (Option.some.inj hls2).symm
              subst this
              rw [hpf] at hlq
              have : lq = len := (Option.some.inj hlq).symm
              subst this
              exact not_lt.mp hlt
            · intro _
              trivial

/-- **C5** (confirmed).  `is_valid_dimension` returns `true` exactly when
thickness lies in `[0.1, 100]`, width lies in `[100, 5000]` and strictly
exceeds thickness, and any given non-coil length parses to at least 100 or
is non-numeric; and the specification's three concrete examples evaluate as
stated. -/
theorem is_valid_dimension_spec :
    (∀ t w l, is_valid_dimension t w l = true ↔ specIsValidDim t w l) ∧
    is_valid_dimension "1.6" "1219" (some "2438") = true ∧
    is_valid_dimension "0.05" "1219" (some "2438") = false ∧
    is_valid_dimension "1.6" "50" (some "2438") = false := by
  refine ⟨?_, by decide, by decide, by decide⟩
  intro t w l
  unfold is_valid_dimension specIsValidDim
  cases ht : pyFloat ⟨t.data.filter fun c => c != ','⟩ with
  | none =>
    simp
  | some tq =>
  cases hw : pyFloat ⟨w.data.filter fun c => c != ','⟩ with
  | none =>
    simp
  | some wq =>
  by_cases h1 : tq < mkRat 1 10 ∨ tq > 100
  · have hb : (tq < mkRat 1 10 || tq > 100) = true := by
      rcases h1 with h | h
      · simp [h]
      · simp [h]
    simp only [hb, if_true]
    constructor
    · intro h
      cases h
    · rintro ⟨tq2, wq2, htq, hwq, a1, a2, _⟩
      have : tq2 = tq := (Option.some.inj htq).symm
      subst this
      rcases h1 with h | h
      · exact absurd a1 (not_le.mpr h)
      · exact absurd a2 (not_le.mpr h)
  · have hb : (tq < mkRat 1 10 || tq > 100) = false := by
      push_neg at h1
      simp [not_lt.mpr h1.1, not_lt.mpr h1.2]
    push_neg at h1
    simp only [hb, Bool.false_eq_true, if_false]
    by_cases h2 : wq < 100 ∨ wq > 5000
    · have hb2 : (wq < 100 || wq > 5000) = true := by
        rcases h2 with h | h
        · simp [h]
        · simp [h]
      simp only [hb2, if_true]
      constructor
      · intro h
        cases h
      · rintro ⟨tq2, wq2, htq, hwq, _, _, a3, a4, _⟩
        have : wq2 = wq := (Option.some.inj hwq).symm
        subst this
        rcases h2 with h | h
        · exact absurd a3 (not_le.mpr h)
        · exact absurd a4 (not_le.mpr h)
    · have hb2 : (wq < 100 || wq > 5000) = false := by
        push_neg at h2
        simp [not_lt.mpr h2.1, not_lt.mpr h2.2]
      push_neg at h2
      simp only [hb2, Bool.false_eq_true, if_false]
      by_cases h3 : wq ≤ tq
      · simp only [h3, if_true]
        constructor
        · intro h
          cases h
        · rintro ⟨tq2, wq2, htq, hwq, _, _, _, _, a5, _⟩
          have e1 : tq2 = tq := (Option.some.inj htq).symm
          have e2 : wq2 = wq := (Option.some.inj hwq).symm
          subst e1
          subst e2
          exact absurd a5 (not_lt.mpr h3)
      · simp only [h3, if_false]
        rw [lenCheck_eq_true_iff l]
        constructor
        · intro hl
          exact ⟨tq, wq, rfl, rfl, h1.1, h1.2, h2.1, h2.2, not_le.mp h3, hl⟩
        · rintro ⟨tq2, wq2, htq, hwq, _, _, _, _, _, hl⟩
          exact hl

/-! ### Claims C7 and C9: the Uniqueness Resolver -/

theorem natReprAux_eq_digits :
    ∀ fuel n, n ≤ fuel →
      natReprAux fuel n = (Nat.digits 10 n).reverse.map fun d => Char.ofNat (48 + d) := by
  intro fuel
  induction fuel with
  | zero =>
    intro n hn
    have : n = 0 := Nat.le_zero.mp hn
    subst this
    simp [natReprAux]
  | succ f ih =>
    intro n hn
    by_cases h0 : n = 0
    · subst h0
      simp [natReprAux]
    · rw [natReprAux, if_neg h0]
      have hdiv : n / 10 ≤ f := by
        have : n / 10 < n := Nat.div_lt_self (Nat.pos_of_ne_zero h0) (by omega)
        omega
      rw [ih _ hdiv, Nat.digits_def' (by omega : 1 < 10) (Nat.pos_of_ne_zero h0)]
      simp

theorem natRepr_eq_digits (n : Nat) (h : n ≠ 0) :
    natRepr n = (Nat.digits 10 n).reverse.map fun d => Char.ofNat (48 + d) := by
  rw [natRepr, if_neg h]
  exact natReprAux_eq_digits (n + 1) n (by omega)

theorem digitChar_toNat (d : Nat) (hd : d < 10) :
    (Char.ofNat (48 + d)).toNat = 48 + d := by
  interval_cases d <;> decide

theorem mapDigitChar_inj :
    ∀ l1 l2 : List Nat, (∀ d ∈ l1, d < 10) → (∀ d ∈ l2, d < 10) →
      l1.map (fun d => Char.ofNat (48 + d)) = l2.map (fun d => Char.ofNat (48 + d)) →
      l1 = l2 := by
  intro l1
  induction l1 with
  | nil =>
    intro l2 _ _ h
    cases l2 with
    | nil => rfl
    | cons b t2 => simp at h
  | cons a t ih =>
    intro l2 h1 h2 h
    cases l2 with
    | nil => simp at h
    | cons b t2 =>
      simp only [List.map_cons, List.cons.injEq] at h
      have ha : a < 10 := h1 a (by simp)
      have hb : b < 10 := h2 b (by simp)
      have hv : 48 + a = 48 + b := by
        rw [← digitChar_toNat a ha, ← digitChar_toNat b hb, h.1]
      have hab : a = b := by omega
      subst hab
      rw [ih t2 (fun d hd => h1 d (by simp [hd])) (fun d hd => h2 d (by simp [hd])) h.2]

theorem natRepr_injective : Function.Injective natRepr := by
  have key : ∀ n : Nat, n ≠ 0 → natRepr n = ['0'] → False := by
    intro n hn h
    rw [natRepr_eq_digits n hn] at h
    have hlen : (Nat.digits 10 n).length = 1 := by
      have h2 := congrArg List.length h
      simp at h2
      omega
    obtain ⟨d, hd⟩ := List.length_eq_one.mp hlen
    rw [hd] at h
    simp only [List.reverse_cons, List.reverse_nil, List.nil_append,
      List.map_cons, List.map_nil, List.cons.injEq] at h
    have hdlt : d < 10 :=
      Nat.digits_lt_base (by omega) (by rw [hd]; simp)
    have : 48 + d = 48 := by
      have h0 := congrArg Char.toNat h.1
      rwa [digitChar_toNat d hdlt] at h0
    have hd0 : d = 0 := by omega
    subst hd0
    have := Nat.ofDigits_digits 10 n
    rw [hd] at this
    simp [Nat.ofDigits] at this
    exact hn this.symm
  intro m n h
  by_cases hm : m = 0 <;> by_cases hn : n = 0
  · omega
  · subst hm
    have h0 : natRepr 0 = ['0'] := by rw [natRepr, if_pos rfl]
    rw [h0] at h
    exact absurd h.symm (fun hh => key n hn hh)
  · subst hn
    have h0 : natRepr 0 = ['0'] := by rw [natRepr, if_pos rfl]
    rw [h0] at h
    exact absurd h (fun hh => key m hm hh)
  · rw [natRepr_eq_digits m hm, natRepr_eq_digits n hn] at h
    have hrev := mapDigitChar_inj _ _
      (fun d hd => Nat.digits_lt_base (by omega) (List.mem_reverse.mp hd))
      (fun d hd => Nat.digits_lt_base (by omega) (List.mem_reverse.mp hd)) h
    have hdig : Nat.digits 10 m = Nat.digits 10 n :=
      List.reverse_injective hrev
    have h1 := Nat.ofDigits_digits 10 m
    rw [hdig, Nat.ofDigits_digits 10 n] at h1
    exact h1.symm

theorem uniqueName_injective (base ext : String) :
    Function.Injective (uniqueName base ext) := by
  intro k1 k2 h
  apply natRepr_injective
  have hd := congrArg String.data h
  simp only [uniqueName, String.data_append] at hd
  simpa using hd

theorem uniqueLoop_reaches (ex : String → Bool) (base ext : String) :
    ∀ k c fuel, (∀ j, j < k → ex (uniqueName base ext (c + j)) = true) →
      ex (uniqueName base ext (c + k)) = false → k < fuel →
      uniqueLoop ex base ext fuel c = some (uniqueName base ext (c + k)) := by
  intro k
  induction k with
  | zero =>
    intro c fuel _ hfail hfuel
    cases fuel with
    | zero => omega
    | succ f =>
      rw [uniqueLoop]
      simp only [Nat.add_zero] at hfail
      simp [hfail]
  | succ k ih =>
    intro c fuel hall hfail hfuel
    cases fuel with
    | zero => omega
    | succ f =>
      rw [uniqueLoop]
      have h0 : ex (uniqueName base ext c) = true := by
        have := hall 0 (by omega)
        simpa using this
      simp only [h0, if_true]
      have heq : c + (k + 1) = (c + 1) + k := by omega
      rw [heq] at hfail
      have := ih (c + 1) f
        (fun j hj => by
          have := hall (j + 1) (by omega)
          have harr : c + (j + 1) = (c + 1) + j := by omega
          rwa [harr] at this)
        hfail (by omega)
      rw [this, heq]

/-- **C7** (confirmed).  `get_unique_filename` splits the candidate at the
last dot into stem and extension, returns the candidate unchanged when the
existence predicate rejects it, and otherwise returns `stem_k.ext` for the
least counter `k` (starting at 1) at which the predicate is false.  The
specification's concrete example (predicate true exactly on `a.pdf` and
`a_1.pdf` gives `a_2.pdf`) is the witness. -/
theorem get_unique_filename_spec (ex : String → Bool) (filename : String)
    (k fuel : Nat) :
    (ex filename = false → get_unique_filename ex filename fuel = some filename) ∧
    (ex filename = true → 1 ≤ k → k < fuel →
      (∀ j, j < k → 1 ≤ j →
        ex (uniqueName (pathStem filename) (pathSuffix filename) j) = true) →
      ex (uniqueName (pathStem filename) (pathSuffix filename) k) = false →
      get_unique_filename ex filename fuel =
        some (uniqueName (pathStem filename) (pathSuffix filename) k)) := by
  constructor
  · intro h
    rw [get_unique_filename, if_neg (by simp [h])]
  · intro h hk hfuel hall hfail
    rw [get_unique_filename, if_pos h]
    have heq : k = 1 + (k - 1) := by omega
    rw [heq] at hfail
    have := uniqueLoop_reaches ex (pathStem filename) (pathSuffix filename)
      (k - 1) 1 fuel
      (fun j hj => hall (1 + j) (by omega) (by omega))
      hfail (by omega)
    rw [this, ← heq]

/-- The example predicate of the specification: true exactly on `a.pdf` and
`a_1.pdf`. -/
def examplePredicate : String → Bool := fun s => s == "a.pdf" || s == "a_1.pdf"

/-- **C7** witness: the concrete example, via the main theorem. -/
theorem get_unique_filename_spec_witness :
    get_unique_filename examplePredicate "a.pdf" 3 = some "a_2.pdf" := by
  have h := (get_unique_filename_spec examplePredicate "a.pdf" 2 3).2
    (by decide) (by decide) (by decide) (by decide) (by decide)
  rw [h]
  decide

/-- **C9** (confirmed).  For every existence predicate that is true on only
finitely many names, the counter loop of `get_unique_filename` reaches a
name on which the predicate is false: enough fuel makes the fueled embedding
return a result, and that result fails the predicate. -/
theorem get_unique_filename_terminates (ex : String → Bool) (filename : String)
    (hfin : {s : String | ex s = true}.Finite) :
    ∃ fuel r, get_unique_filename ex filename fuel = some r ∧ ex r = false := by
  by_cases h0 : ex filename = true
  · have hinj : Function.Injective
        (fun j : Nat => uniqueName (pathStem filename) (pathSuffix filename) (j + 1)) := by
      intro a b hab
      have := uniqueName_injective (pathStem filename) (pathSuffix filename) hab
      omega
    have hex : ∃ j, ex (uniqueName (pathStem filename) (pathSuffix filename) (j + 1)) = false := by
      by_contra hc
      push_neg at hc
      have hsub : Set.range
          (fun j : Nat => uniqueName (pathStem filename) (pathSuffix filename) (j + 1)) ⊆
          {s : String | ex s = true} := by
        rintro _ ⟨j, rfl⟩
        have := hc j
        simpa [Set.mem_setOf_eq] using (Bool.not_eq_false _).mp this
      exact (Set.infinite_range_of_injective hinj) (hfin.subset hsub)
    classical
    have hk := Nat.find_spec hex
    have hmin := fun j (hj : j < Nat.find hex) => Nat.find_min hex hj
    refine ⟨Nat.find hex + 2,
      uniqueName (pathStem filename) (pathSuffix filename) (Nat.find hex + 1), ?_, hk⟩
    rw [get_unique_filename, if_pos h0]
    have harr : Nat.find hex + 1 = 1 + Nat.find hex := by omega
    rw [harr]
    exact uniqueLoop_reaches ex (pathStem filename) (pathSuffix filename)
      (Nat.find hex) 1 (Nat.find hex + 2)
      (fun j hj => by
        have := hmin j hj
        have harr2 : 1 + j = j + 1 := by omega
        rw [harr2]
        exact (Bool.not_eq_false _).mp this)
      (by rw [show 1 + Nat.find hex = Nat.find hex + 1 from by omega]; exact hk)
      (by omega)
  · exact ⟨1, filename, by rw [get_unique_filename, if_neg h0],
      by simpa using h0⟩

/-- **C9** witness: a concrete finite predicate (true only on `x.pdf`). -/
theorem get_unique_filename_terminates_witness :
    ∃ fuel r, get_unique_filename (fun s => s == "x.pdf") "x.pdf" fuel = some r ∧
      (r == "x.pdf") = false := by
  have h := get_unique_filename_terminates (fun s => s == "x.pdf") "x.pdf"
    ((Set.finite_singleton "x.pdf").subset (by
      intro s hs
      simp only [Set.mem_setOf_eq, beq_iff_eq] at hs
      simp [hs]))
  simpa using h

/-! ### Claim C3: the Filename Synthesizer -/

/-- The synthesis exactly as claim C3 states it: the `_`-join of the present
fields in the fixed order `[date, material, dimensions, manufacturer,
charge_no]`, EVERY present field's value run through the Sanitizer, suffixed
`.pdf`.  (Definition follows the claim's words, for comparison with the
code.) -/
def claimSynthesize (info : MillInfo) : String :=
  String.intercalate "_"
    ((if pyTruthy info.date then [sanitize_for_filename info.date] else []) ++
     (if pyTruthy info.material then [sanitize_for_filename info.material] else []) ++
     (if pyTruthy info.dimensions then [sanitize_for_filename info.dimensions] else []) ++
     (if pyTruthy info.manufacturer then [sanitize_for_filename info.manufacturer] else []) ++
     (if pyTruthy info.charge_no then [sanitize_for_filename info.charge_no] else [])) ++
    ".pdf"

/-- Claim C3 as amended: identical, except that the date field is used
verbatim (the code appends `info['date']` without sanitizing it). -/
def claimSynthesizeAmended (info : MillInfo) : String :=
  String.intercalate "_"
    ((if pyTruthy info.date then [info.date.getD ""] else []) ++
     (if pyTruthy info.material then [sanitize_for_filename info.material] else []) ++
     (if pyTruthy info.dimensions then [sanitize_for_filename info.dimensions] else []) ++
     (if pyTruthy info.manufacturer then [sanitize_for_filename info.manufacturer] else []) ++
     (if pyTruthy info.charge_no then [sanitize_for_filename info.charge_no] else [])) ++
    ".pdf"

/-- A record whose only populated field is a date containing a space. -/
def c3Record : MillInfo :=
  { date := some "a b", material := none, dimensions := none,
    manufacturer := none, charge_no := none, raw_text := "" }

/-- **C3** (counterexample to the claim as stated).  `generate_new_filename`
does not run the date through the Sanitizer: on a record whose only field is
`date = "a b"` the code produces `"a b.pdf"` while the claimed synthesis
produces `"a_b.pdf"`. -/
theorem generate_new_filename_date_not_sanitized :
    generate_new_filename c3Record "x.pdf" ≠ claimSynthesize c3Record := by decide

/-- **C3** (corrected).  For every record with at least one populated field,
`generate_new_filename` returns the `_`-join of the present fields in the
fixed order `[date, material, dimensions, manufacturer, charge_no]` suffixed
`.pdf`, where material, dimensions, manufacturer and charge_no are run
through the Sanitizer but the date is used verbatim. -/
theorem generate_new_filename_spec (info : MillInfo) (original_name : String)
    (h : (pyTruthy info.date || pyTruthy info.material || pyTruthy info.dimensions ||
          pyTruthy info.manufacturer || pyTruthy info.charge_no) = true) :
    generate_new_filename info original_name = claimSynthesizeAmended info := by
  simp only [Bool.or_eq_true] at h
  rcases h with ((((h | h) | h) | h) | h) <;>
    simp [generate_new_filename, claimSynthesizeAmended, h, List.isEmpty_iff,
      List.append_eq_nil]

/-- **C3** witness: a record with all five fields present. -/
theorem generate_new_filename_spec_witness :
    generate_new_filename
      { date := some "24-01-15", material := some "SS400",
        dimensions := some "1.6x1219xC", manufacturer := some "東京製鉄",
        charge_no := some "AB1234", raw_text := "" } "orig.pdf" =
      "24-01-15_SS400_1.6x1219xC_東京製鉄_AB1234.pdf" := by
  rw [generate_new_filename_spec _ "orig.pdf" (by decide)]
  decide

/-! ### Claim C6: the Manufacturer Resolver priority path -/

/-- Claim-side hypothesis: some variant of some priority entry occurs
case-insensitively in the text. -/
def anyPriorityHit (text : String) : Bool :=
  PRIORITY_MANUFACTURERS.any fun entry =>
    entry.2.any fun v => containsSub (v.data.map asciiUpper) (text.data.map asciiUpper)

/-- Claim-side result: the canonical display name of the first table entry
(in table order) with a matching variant. -/
def firstPriorityHit (text : String) : Option String :=
  (PRIORITY_MANUFACTURERS.find? fun entry =>
    entry.2.any fun v => containsSub (v.data.map asciiUpper) (text.data.map asciiUpper)).map
    fun e => e.1

theorem firstSome_if_eq_find (p : α → Bool) (f : α → β) :
    ∀ l : List α,
      firstSome (fun e => if p e then some (f e) else none) l = (l.find? p).map f := by
  intro l
  induction l with
  | nil => rfl
  | cons a t ih =>
    rw [firstSome, List.find?]
    by_cases h : p a = true
    · simp [h, Option.orElse]
    · simp only [Bool.not_eq_true] at h
      simp [h, Option.orElse, ih]

/-- **C6** (confirmed).  Whenever any surface-form variant of a priority
manufacturer occurs case-insensitively in the text, `extract_manufacturer`
returns the canonical display name of the first matching table entry and
never consults the generic company-name fallback. -/
theorem extract_manufacturer_priority (text : String)
    (h : anyPriorityHit text = true) :
    extract_manufacturer text = firstPriorityHit text ∧
      (firstPriorityHit text).isSome = true := by
  have hfp : findPriority (text.data.map asciiUpper) = firstPriorityHit text := by
    unfold findPriority firstPriorityHit
    exact firstSome_if_eq_find _ _ _
  have hsome : (firstPriorityHit text).isSome = true := by
    unfold anyPriorityHit at h
    rw [List.any_eq_true] at h
    obtain ⟨e, he, hv⟩ := h
    unfold firstPriorityHit
    cases hfind : PRIORITY_MANUFACTURERS.find?
        (fun entry => entry.2.any fun v =>
          containsSub (v.data.map asciiUpper) (text.data.map asciiUpper)) with
    | none =>
      rw [List.find?_eq_none] at hfind
      exact absurd hv (by simpa using hfind e he)
    | some e2 => simp
  refine ⟨?_, hsome⟩
  obtain ⟨d, hd⟩ := Option.isSome_iff_exists.mp hsome
  unfold extract_manufacturer
  simp only [hfp, hd]
  rfl

/-- **C6** witness: the specification's example, a text containing both
`TOKYO STEEL` and an unrelated `㈱Example`, resolves to the canonical
priority name `東京製鉄`, not the generic company match. -/
theorem extract_manufacturer_priority_witness :
    extract_manufacturer "Mill sheet TOKYO STEEL ㈱Example" = some "東京製鉄" := by
  have h := extract_manufacturer_priority "Mill sheet TOKYO STEEL ㈱Example" (by decide)
  rw [h.1]
  decide

/-! ### Capture specifications for the matcher

To reason about what the matcher can capture, each capturing group is given a
static specification: length bounds, a predicate satisfied by all its
characters, and (optionally) a guaranteed character.  `Caps ts specs` relates
a token list (outside any group) to the specifications of its groups in
order; `InCaps q r ts rlo rhi rg specs` describes the remainder of an open
group: consuming `ts` up to the matching `closeG` adds between `rlo` and
`rhi` characters, all satisfying `q`, with a guaranteed `r`-character when
`rg` holds, and the groups after the current one satisfy `specs`. -/

structure GSpec where
  lo : Nat
  hi : Option Nat
  q : Char → Bool
  r : Char → Bool
  grnt : Prop

/-- A capture `g` satisfies its specification. -/
def SpecSat (g : List Char) (sp : GSpec) : Prop :=
  sp.lo ≤ g.length ∧ (∀ h, sp.hi = some h → g.length ≤ h) ∧
    (∀ c ∈ g, sp.q c = true) ∧ (sp.grnt → ∃ c ∈ g, sp.r c = true)

/-- Addition of optional bounds (`none` is unbounded). -/
def addO : Option Nat → Option Nat → Option Nat
  | some a, some b => some (a + b)
  | _, _ => none

/-- Maximum of optional bounds (`none` is unbounded). -/
def maxO : Option Nat → Option Nat → Option Nat
  | some a, some b => some (max a b)
  | _, _ => none

mutual
inductive Caps : List RTok → List GSpec → Prop
  | nil : Caps [] []
  | cls {p : Char → Bool} {lo : Nat} {hi : Option Nat} {lz : Bool}
      {ts : List RTok} {specs : List GSpec} :
      Caps ts specs → Caps (.cls p lo hi lz :: ts) specs
  | lit {s : List Char} {ci : Bool} {ts : List RTok} {specs : List GSpec} :
      Caps ts specs → Caps (.lit s ci :: ts) specs
  | bdry {ts : List RTok} {specs : List GSpec} :
      Caps ts specs → Caps (.bdry :: ts) specs
  | alt2 {a b : List RTok} {ts : List RTok} {specs : List GSpec} :
      Caps (a ++ ts) specs → Caps (b ++ ts) specs →
      Caps (.alt2 a b :: ts) specs
  | openg {q r : Char → Bool} {ts : List RTok} {rlo : Nat} {rhi : Option Nat}
      {rg : Prop} {specs : List GSpec} :
      InCaps q r ts rlo rhi rg specs →
      Caps (.openG :: ts) (⟨rlo, rhi, q, r, rg⟩ :: specs)

inductive InCaps : (Char → Bool) → (Char → Bool) →
    List RTok → Nat → Option Nat → Prop → List GSpec → Prop
  | close {q r : Char → Bool} {ts : List RTok} {specs : List GSpec} :
      Caps ts specs → InCaps q r (.closeG :: ts) 0 (some 0) False specs
  | cls {q r p : Char → Bool} {lo : Nat} {hi : Option Nat} {lz : Bool}
      {ts : List RTok} {rlo : Nat} {rhi : Option Nat} {rg : Prop}
      {specs : List GSpec} :
      (∀ c, p c = true → q c = true) →
      InCaps q r ts rlo rhi rg specs →
      InCaps q r (.cls p lo hi lz :: ts) (lo + rlo) (addO hi rhi)
        (rg ∨ (1 ≤ lo ∧ ∀ c, p c = true → r c = true)) specs
  | lit {q r : Char → Bool} {s : List Char} {ci : Bool} {ts : List RTok}
      {rlo : Nat} {rhi : Option Nat} {rg : Prop} {specs : List GSpec} :
      (∀ pc ∈ s, ∀ c, ciChar ci pc c = true → q c = true) →
      InCaps q r ts rlo rhi rg specs →
      InCaps q r (.lit s ci :: ts) (s.length + rlo) (addO (some s.length) rhi)
        (rg ∨ (∃ pc ∈ s, ∀ c, ciChar ci pc c = true → r c = true)) specs
  | bdry {q r : Char → Bool} {ts : List RTok} {rlo : Nat} {rhi : Option Nat}
      {rg : Prop} {specs : List GSpec} :
      InCaps q r ts rlo rhi rg specs →
      InCaps q r (.bdry :: ts) rlo rhi rg specs
  | alt2 {q r : Char → Bool} {a b : List RTok} {ts : List RTok}
      {rlo1 rlo2 : Nat} {rhi1 rhi2 : Option Nat} {rg1 rg2 : Prop}
      {specs : List GSpec} :
      InCaps q r (a ++ ts) rlo1 rhi1 rg1 specs →
      InCaps q r (b ++ ts) rlo2 rhi2 rg2 specs →
      InCaps q r (.alt2 a b :: ts) (min rlo1 rlo2) (maxO rhi1 rhi2)
        (rg1 ∧ rg2) specs
end

theorem orElse_eq_some (x : Option α) (f : Unit → Option α) (b : α)
    (h : x.orElse f = some b) : x = some b ∨ (x = none ∧ f () = some b) := by
  cases x with
  | none => exact Or.inr ⟨rfl, h⟩
  | some a => exact Or.inl h

theorem firstSome_eq_some (f : α → Option β) :
    ∀ l b, firstSome f l = some b → ∃ a ∈ l, f a = some b := by
  intro l
  induction l with
  | nil => intro b h; cases h
  | cons a t ih =>
    intro b h
    rw [firstSome] at h
    rcases orElse_eq_some _ _ _ h with h1 | ⟨_, h2⟩
    · exact ⟨a, by simp, h1⟩
    · obtain ⟨x, hx, hfx⟩ := ih b h2
      exact ⟨x, by simp [hx], hfx⟩

theorem clsCands_mem (lo : Nat) (hi : Option Nat) (lz : Bool) (run t : Nat)
    (h : t ∈ clsCands lo hi lz run) :
    lo ≤ t ∧ t ≤ run ∧ ∀ hh, hi = some hh → t ≤ hh := by
  unfold clsCands at h
  cases hi with
  | none =>
    simp only at h
    split at h
    · cases h
    · rename_i hmx
      split at h <;>
      · obtain ⟨i, hi2, rfl⟩ := List.mem_map.mp h
        rw [List.mem_range] at hi2
        refine ⟨by omega, by omega, ?_⟩
        intro hh hc
        cases hc
  | some cap =>
    simp only at h
    split at h
    · cases h
    · rename_i hmx
      split at h <;>
      · obtain ⟨i, hi2, rfl⟩ := List.mem_map.mp h
        rw [List.mem_range] at hi2
        refine ⟨by omega, by omega, ?_⟩
        intro hh hc
        injection hc with hc2
        omega

theorem countLeading_le_length (p : Char → Bool) :
    ∀ s : List Char, countLeading p s ≤ s.length := by
  intro s
  induction s with
  | nil => exact Nat.le_refl 0
  | cons c rest ih =>
    rw [countLeading]
    split <;> simp only [List.length_cons] <;> omega

theorem take_all_p (p : Char → Bool) :
    ∀ (s : List Char) (t : Nat), t ≤ countLeading p s →
      ∀ c ∈ s.take t, p c = true := by
  intro s
  induction s with
  | nil => intro t _ c hc; simp at hc
  | cons a rest ih =>
    intro t ht c hc
    rw [countLeading] at ht
    cases t with
    | zero => simp at hc
    | succ t2 =>
      split at ht
      · rename_i hpa
        rw [List.take_succ_cons] at hc
        rcases List.mem_cons.mp hc with rfl | hc2
        · exact hpa
        · exact ih t2 (by omega) c hc2
      · omega

theorem ciPrefix_forall₂ (ci : Bool) :
    ∀ (str s : List Char), ciPrefix ci str s = true →
      List.Forall₂ (fun pc c => ciChar ci pc c = true) str (s.take str.length) := by
  intro str
  induction str with
  | nil => intro s _; exact List.Forall₂.nil
  | cons pc ps ih =>
    intro s h
    cases s with
    | nil => cases h
    | cons c cs =>
      rw [ciPrefix, Bool.and_eq_true] at h
      rw [List.length_cons, List.take_succ_cons]
      exact List.Forall₂.cons h.1 (ih cs h.2)

theorem forall₂_mem_right {R : α → β → Prop} :
    ∀ {l1 : List α} {l2 : List β}, List.Forall₂ R l1 l2 →
      ∀ c ∈ l2, ∃ a ∈ l1, R a c := by
  intro l1 l2 h
  induction h with
  | nil => intro c hc; simp at hc
  | cons hr _ ih =>
    intro c hc
    rcases List.mem_cons.mp hc with rfl | hc2
    · exact ⟨_, by simp, hr⟩
    · obtain ⟨a, ha, har⟩ := ih c hc2
      exact ⟨a, by simp [ha], har⟩

theorem forall₂_mem_left {R : α → β → Prop} :
    ∀ {l1 : List α} {l2 : List β}, List.Forall₂ R l1 l2 →
      ∀ a ∈ l1, ∃ c ∈ l2, R a c := by
  intro l1 l2 h
  induction h with
  | nil => intro a ha; simp at ha
  | cons hr _ ih =>
    intro a ha
    rcases List.mem_cons.mp ha with rfl | ha2
    · exact ⟨_, by simp, hr⟩
    · obtain ⟨c, hc, hcr⟩ := ih a ha2
      exact ⟨c, by simp [hc], hcr⟩

theorem ciPrefix_take_length (ci : Bool) (str s : List Char)
    (h : ciPrefix ci str s = true) : (s.take str.length).length = str.length := by
  have := (ciPrefix_forall₂ ci str s h).length_eq
  omega

theorem addO_compat (len : Nat) (rhi2 : Option Nat) (hr h0 olen tlen : Nat)
    (hhr : addO (some len) rhi2 = some hr) (hle : olen + hr ≤ h0)
    (htl : tlen = len) :
    ∃ hr2, rhi2 = some hr2 ∧ olen + tlen + hr2 ≤ h0 := by
  cases rhi2 with
  | none => cases hhr
  | some v =>
    simp only [addO, Option.some.injEq] at hhr
    exact ⟨v, rfl, by omega⟩

theorem addO_compat2 (hi rhi2 : Option Nat) (hr h0 olen t : Nat)
    (hhr : addO hi rhi2 = some hr) (hle : olen + hr ≤ h0)
    (ht : ∀ cap, hi = some cap → t ≤ cap) :
    ∃ hr2, rhi2 = some hr2 ∧ olen + t + hr2 ≤ h0 := by
  cases hi with
  | none => cases hhr
  | some cap =>
    cases rhi2 with
    | none => cases hhr
    | some v =>
      simp only [addO, Option.some.injEq] at hhr
      have := ht cap rfl
      exact ⟨v, rfl, by omega⟩

theorem maxO_compat_left (rhi1 rhi2 : Option Nat) (hr h0 olen : Nat)
    (hhr : maxO rhi1 rhi2 = some hr) (hle : olen + hr ≤ h0) :
    ∃ v1, rhi1 = some v1 ∧ olen + v1 ≤ h0 := by
  cases rhi1 with
  | none => cases hhr
  | some v1 =>
    cases rhi2 with
    | none => cases hhr
    | some v2 =>
      simp only [maxO, Option.some.injEq] at hhr
      have := Nat.le_max_left v1 v2
      exact ⟨v1, rfl, by omega⟩

theorem maxO_compat_right (rhi1 rhi2 : Option Nat) (hr h0 olen : Nat)
    (hhr : maxO rhi1 rhi2 = some hr) (hle : olen + hr ≤ h0) :
    ∃ v2, rhi2 = some v2 ∧ olen + v2 ≤ h0 := by
  cases rhi1 with
  | none => cases hhr
  | some v1 =>
    cases rhi2 with
    | none => cases hhr
    | some v2 =>
      simp only [maxO, Option.some.injEq] at hhr
      have := Nat.le_max_right v1 v2
      exact ⟨v2, rfl, by omega⟩

/-- The master capture lemma: a successful run of the matcher produces
captures satisfying the static specifications.  The two conjuncts are the
closed-group and open-group invariants. -/
theorem M_caps :
    ∀ fuel prev acc0 op done ts s w gs dspecs,
      M fuel prev acc0 op done ts s = some (w, gs) →
      List.Forall₂ SpecSat done dspecs →
      ((∀ specs, op = none → Caps ts specs →
          List.Forall₂ SpecSat gs (dspecs.reverse ++ specs)) ∧
       (∀ o q r rlo rhi rg specs lo0 hi0 g0,
          op = some o →
          InCaps q r ts rlo rhi rg specs →
          (∀ c ∈ o, q c = true) →
          lo0 ≤ o.length + rlo →
          (∀ h0, hi0 = some h0 → ∃ hr, rhi = some hr ∧ o.length + hr ≤ h0) →
          (g0 → (∃ c ∈ o, r c = true) ∨ rg) →
          List.Forall₂ SpecSat gs
            (dspecs.reverse ++ (⟨lo0, hi0, q, r, g0⟩ : GSpec) :: specs))) := by
  intro fuel
  induction fuel with
  | zero =>
    intro prev acc0 op done ts s w gs dspecs hM _
    cases hM
  | succ f ih =>
    intro prev acc0 op done ts s w gs dspecs hM hdone
    cases ts with
    | nil =>
      simp only [M, Option.some.injEq, Prod.mk.injEq] at hM
      obtain ⟨rfl, rfl⟩ := hM
      constructor
      · intro specs _ hcaps
        cases hcaps
        rw [List.append_nil]
        exact List.rel_reverse hdone
      · intro o q r rlo rhi rg specs lo0 hi0 g0 _ hin _ _ _ _
        cases hin
    | cons tok ts2 =>
      cases tok with
      | bdry =>
        simp only [M] at hM
        split at hM
        · have hrec := ih _ _ _ _ _ _ _ _ _ hM hdone
          constructor
          · intro specs hop hcaps
            cases hcaps with
            | bdry hc => exact hrec.1 specs hop hc
          · intro o q r rlo rhi rg specs lo0 hi0 g0 hop hin ho hlo hhi hg
            cases hin with
            | bdry hin2 =>
              exact hrec.2 o q r _ _ _ specs lo0 hi0 g0 hop hin2 ho hlo hhi hg
        · cases hM
      | openG =>
        simp only [M] at hM
        have hrec := ih _ _ _ _ _ _ _ _ _ hM hdone
        constructor
        · intro specs _ hcaps
          cases hcaps with
          | openg hin =>
            exact hrec.2 [] _ _ _ _ _ _ _ _ _ rfl hin (by simp) (by simp)
              (fun h0 hh0 => ⟨h0, hh0, by simp⟩) (fun hgg => Or.inr hgg)
        · intro o q r rlo rhi rg specs lo0 hi0 g0 _ hin _ _ _ _
          cases hin
      | closeG =>
        simp only [M] at hM
        constructor
        · intro specs hop hcaps
          cases hcaps
        · intro o q r rlo rhi rg specs lo0 hi0 g0 hop hin ho hlo hhi hg
          subst hop
          simp only [Option.getD_some] at hM
          cases hin with
          | close hcaps =>
            have hsat : SpecSat o ⟨lo0, hi0, q, r, g0⟩ := by
              refine ⟨?_, ?_, ho, ?_⟩
              · show lo0 ≤ o.length
                omega
              · intro hh hhi0
                obtain ⟨hr, hhr, hle⟩ := hhi hh hhi0
                have he : hr = 0 := (Option.some.inj hhr).symm
                show o.length ≤ hh
                omega
              · intro hg0
                rcases hg hg0 with hex | hfalse
                · exact hex
                · exact hfalse.elim
            have hrec := ih _ _ _ _ _ _ _ _
              ((⟨lo0, hi0, q, r, g0⟩ : GSpec) :: dspecs) hM
              (List.Forall₂.cons hsat hdone)
            have hres := hrec.1 specs rfl hcaps
            rw [List.reverse_cons, List.append_assoc, List.singleton_append] at hres
            exact hres
      | lit str ci =>
        simp only [M] at hM
        split at hM
        · rename_i hpre
          constructor
          · intro specs hop hcaps
            subst hop
            simp only [Option.map_none'] at hM
            cases hcaps with
            | lit hc => exact (ih _ _ _ _ _ _ _ _ _ hM hdone).1 specs rfl hc
          · intro o q r rlo rhi rg specs lo0 hi0 g0 hop hin ho hlo hhi hg
            subst hop
            simp only [Option.map_some'] at hM
            cases hin with
            | lit hq hin2 =>
              have hf2 := ciPrefix_forall₂ ci str s hpre
              have htl := ciPrefix_take_length ci str s hpre
              refine (ih _ _ _ _ _ _ _ _ _ hM hdone).2
                (o ++ s.take str.length) q r _ _ _ specs lo0 hi0 g0 rfl hin2
                ?_ ?_ ?_ ?_
              · intro c hc
                rcases List.mem_append.mp hc with hc1 | hc2
                · exact ho c hc1
                · obtain ⟨pc, hpc, hci⟩ := forall₂_mem_right hf2 c hc2
                  exact hq pc hpc c hci
              · rw [List.length_append, htl]
                omega
              · intro h0 hh0
                obtain ⟨hr, hhr, hle⟩ := hhi h0 hh0
                obtain ⟨hr2, he2, hle2⟩ :=
                  addO_compat str.length _ hr h0 o.length
                    (s.take str.length).length hhr hle htl
                refine ⟨hr2, he2, ?_⟩
                rw [List.length_append]
                exact hle2
              · intro hg0
                rcases hg hg0 with hex | hrg
                · obtain ⟨c, hc, hrc⟩ := hex
                  exact Or.inl ⟨c, List.mem_append_left _ hc, hrc⟩
                · rcases hrg with hrg1 | ⟨pc, hpc, hforce⟩
                  · exact Or.inr hrg1
                  · obtain ⟨c, hc, hci⟩ := forall₂_mem_left hf2 pc hpc
                    exact Or.inl ⟨c, List.mem_append_right _ hc, hforce c hci⟩
        · cases hM
      | cls p lo hi lz =>
        simp only [M] at hM
        obtain ⟨t, htmem, hMt⟩ := firstSome_eq_some _ _ _ hM
        obtain ⟨hlot, htrun, hthi⟩ := clsCands_mem lo hi lz _ t htmem
        have hallp := take_all_p p s t htrun
        have htlen : (s.take t).length = t := by
          rw [List.length_take]
          have h1 := countLeading_le_length p s
          omega
        constructor
        · intro specs hop hcaps
          subst hop
          simp only [Option.map_none'] at hMt
          cases hcaps with
          | cls hc => exact (ih _ _ _ _ _ _ _ _ _ hMt hdone).1 specs rfl hc
        · intro o q r rlo rhi rg specs lo0 hi0 g0 hop hin ho hlo hhi hg
          subst hop
          simp only [Option.map_some'] at hMt
          cases hin with
          | cls hq hin2 =>
            refine (ih _ _ _ _ _ _ _ _ _ hMt hdone).2
              (o ++ s.take t) q r _ _ _ specs lo0 hi0 g0 rfl hin2 ?_ ?_ ?_ ?_
            · intro c hc
              rcases List.mem_append.mp hc with hc1 | hc2
              · exact ho c hc1
              · exact hq c (hallp c hc2)
            · rw [List.length_append, htlen]
              omega
            · intro h0 hh0
              obtain ⟨hr, hhr, hle⟩ := hhi h0 hh0
              obtain ⟨hr2, he2, hle2⟩ := addO_compat2 hi _ hr h0 o.length t hhr hle hthi
              refine ⟨hr2, he2, ?_⟩
              rw [List.length_append, htlen]
              exact hle2
            · intro hg0
              rcases hg hg0 with hex | hrg
              · obtain ⟨c, hc, hrc⟩ := hex
                exact Or.inl ⟨c, List.mem_append_left _ hc, hrc⟩
              · rcases hrg with hrg1 | ⟨hlo1, hforce⟩
                · exact Or.inr hrg1
                · have hne : s.take t ≠ [] := by
                    intro he
                    rw [he] at htlen
                    simp at htlen
                    omega
                  obtain ⟨c, hc⟩ := List.exists_mem_of_ne_nil _ hne
                  exact Or.inl ⟨c, List.mem_append_right _ hc,
                    hforce c (hallp c hc)⟩
      | alt2 a b =>
        simp only [M] at hM
        rcases orElse_eq_some _ _ _ hM with h1 | ⟨_, h1⟩ <;>
        · constructor
          · intro specs hop hcaps
            cases hcaps with
            | alt2 hca hcb =>
              first
              | exact (ih _ _ _ _ _ _ _ _ _ h1 hdone).1 specs hop hca
              | exact (ih _ _ _ _ _ _ _ _ _ h1 hdone).1 specs hop hcb
          · intro o q r rlo rhi rg specs lo0 hi0 g0 hop hin ho hlo hhi hg
            cases hin with
            | alt2 hina hinb =>
              first
              | refine (ih _ _ _ _ _ _ _ _ _ h1 hdone).2
                  o q r _ _ _ specs lo0 hi0 g0 hop hina ho ?_ ?_ ?_
                · omega
                · intro h0 hh0
                  obtain ⟨hr, hhr, hle⟩ := hhi h0 hh0
                  exact maxO_compat_left _ _ hr h0 o.length hhr hle
                · intro hg0
                  rcases hg hg0 with hex | ⟨hrg1, _⟩
                  · exact Or.inl hex
                  · exact Or.inr hrg1
              | refine (ih _ _ _ _ _ _ _ _ _ h1 hdone).2
                  o q r _ _ _ specs lo0 hi0 g0 hop hinb ho ?_ ?_ ?_
                · omega
                · intro h0 hh0
                  obtain ⟨hr, hhr, hle⟩ := hhi h0 hh0
                  exact maxO_compat_right _ _ hr h0 o.length hhr hle
                · intro hg0
                  rcases hg hg0 with hex | ⟨_, hrg2⟩
                  · exact Or.inl hex
                  · exact Or.inr hrg2

theorem searchFrom_caps (fuel : Nat) (ts : List RTok) (specs : List GSpec)
    (hc : Caps ts specs) :
    ∀ (s : List Char) (prev : Option Char) (w : List Char)
      (gs : List (List Char)) (rest : List Char),
      searchFrom fuel ts prev s = some (w, gs, rest) →
      List.Forall₂ SpecSat gs specs := by
  intro s
  induction s with
  | nil =>
    intro prev w gs rest h
    rw [searchFrom] at h
    cases hM : M fuel prev [] none [] ts [] with
    | none => rw [hM] at h; cases h
    | some pr =>
      rw [hM] at h
      obtain ⟨w2, gs2⟩ := pr
      simp only [Option.some.injEq, Prod.mk.injEq] at h
      obtain ⟨rfl, rfl, rfl⟩ := h
      have := (M_caps fuel prev [] none [] ts [] w2 gs2 [] hM List.Forall₂.nil).1
        specs rfl hc
      simpa using this
  | cons c cs ih =>
    intro prev w gs rest h
    rw [searchFrom] at h
    cases hM : M fuel prev [] none [] ts (c :: cs) with
    | none =>
      rw [hM] at h
      exact ih (some c) w gs rest h
    | some pr =>
      rw [hM] at h
      obtain ⟨w2, gs2⟩ := pr
      simp only [Option.some.injEq, Prod.mk.injEq] at h
      obtain ⟨rfl, rfl, rfl⟩ := h
      have := (M_caps fuel prev [] none [] ts (c :: cs) w2 gs2 [] hM
        List.Forall₂.nil).1 specs rfl hc
      simpa using this

theorem rsearch_caps (fuel : Nat) (ts : List RTok) (specs : List GSpec)
    (hc : Caps ts specs) (s : List Char) (gs : List (List Char))
    (h : rsearch fuel ts s = some gs) : List.Forall₂ SpecSat gs specs := by
  unfold rsearch at h
  rcases Option.map_eq_some'.mp h with ⟨⟨w, gs2, rest⟩, hsf, hgs⟩
  cases hgs
  exact searchFrom_caps fuel ts specs hc s none w gs2 rest hsf

/-! Exact capture specifications of the recurring group shapes. -/

/-- Specification of `(\d{lo,hi})`: between `lo` and `hi` digit characters. -/
def dGrpSpec (lo hi : Nat) : GSpec :=
  ⟨lo + 0, addO (some hi) (some 0), isDigitC, isDigitC,
    False ∨ (1 ≤ lo ∧ ∀ c, isDigitC c = true → isDigitC c = true)⟩

/-- Specification of `([A-Z]{3,9})`: between 3 and 9 letters. -/
def monGrpSpec : GSpec :=
  ⟨3 + 0, addO (some 9) (some 0), isAsciiLetter, isAsciiLetter,
    False ∨ (1 ≤ 3 ∧ ∀ c, isAsciiLetter c = true → isAsciiLetter c = true)⟩

theorem caps_dGrp (lo hi : Nat) (ts : List RTok) (specs : List GSpec)
    (h : Caps ts specs) :
    Caps (dGrp lo hi ++ ts) (dGrpSpec lo hi :: specs) :=
  Caps.openg (InCaps.cls (fun _ hc => hc) (InCaps.close h))

theorem caps_monGrp (ts : List RTok) (specs : List GSpec) (h : Caps ts specs) :
    Caps (monGrp ++ ts) (monGrpSpec :: specs) :=
  Caps.openg (InCaps.cls (fun _ hc => hc) (InCaps.close h))

theorem engPat1_caps : Caps engPat1 [monGrpSpec, dGrpSpec 1 2, dGrpSpec 4 4] :=
  caps_monGrp _ _ (Caps.cls (Caps.cls (Caps.cls
    (caps_dGrp 1 2 _ _ (Caps.cls (Caps.cls (Caps.cls
      (caps_dGrp 4 4 _ _ Caps.nil))))))))

theorem engPat2_caps : Caps engPat2 [dGrpSpec 1 2, monGrpSpec, dGrpSpec 4 4] :=
  caps_dGrp 1 2 _ _ (Caps.cls (Caps.cls (Caps.cls
    (caps_monGrp _ _ (Caps.cls (Caps.cls (Caps.cls
      (caps_dGrp 4 4 _ _ Caps.nil))))))))

theorem engPat3_caps : Caps engPat3 [dGrpSpec 4 4, monGrpSpec, dGrpSpec 1 2] :=
  caps_dGrp 4 4 _ _ (Caps.cls (Caps.cls (Caps.cls
    (caps_monGrp _ _ (Caps.cls (Caps.cls (Caps.cls
      (caps_dGrp 1 2 _ _ Caps.nil))))))))

theorem jpPatYmd_caps : Caps jpPatYmd [dGrpSpec 4 4, dGrpSpec 1 2, dGrpSpec 1 2] :=
  caps_dGrp 4 4 _ _ (Caps.lit (caps_dGrp 1 2 _ _ (Caps.lit
    (caps_dGrp 1 2 _ _ (Caps.lit Caps.nil)))))

theorem jpPatSlash_caps : Caps jpPatSlash [dGrpSpec 4 4, dGrpSpec 1 2, dGrpSpec 1 2] :=
  caps_dGrp 4 4 _ _ (Caps.lit (caps_dGrp 1 2 _ _ (Caps.lit
    (caps_dGrp 1 2 _ _ Caps.nil))))

theorem jpPatDash_caps : Caps jpPatDash [dGrpSpec 4 4, dGrpSpec 1 2, dGrpSpec 1 2] :=
  caps_dGrp 4 4 _ _ (Caps.lit (caps_dGrp 1 2 _ _ (Caps.lit
    (caps_dGrp 1 2 _ _ Caps.nil))))

theorem jpPatReiwa_caps : Caps jpPatReiwa [dGrpSpec 1 2, dGrpSpec 1 2, dGrpSpec 1 2] :=
  Caps.lit (caps_dGrp 1 2 _ _ (Caps.lit (caps_dGrp 1 2 _ _ (Caps.lit
    (caps_dGrp 1 2 _ _ (Caps.lit Caps.nil))))))

theorem jpPatR_caps : Caps jpPatR [dGrpSpec 1 2, dGrpSpec 1 2, dGrpSpec 1 2] :=
  Caps.lit (caps_dGrp 1 2 _ _ (Caps.lit (caps_dGrp 1 2 _ _ (Caps.lit
    (caps_dGrp 1 2 _ _ Caps.nil)))))

theorem jpPatHeisei_caps : Caps jpPatHeisei [dGrpSpec 1 2, dGrpSpec 1 2, dGrpSpec 1 2] :=
  Caps.lit (caps_dGrp 1 2 _ _ (Caps.lit (caps_dGrp 1 2 _ _ (Caps.lit
    (caps_dGrp 1 2 _ _ (Caps.lit Caps.nil))))))

theorem specSat_dGrp (g : List Char) (lo hi : Nat)
    (h : SpecSat g (dGrpSpec lo hi)) :
    (∀ c ∈ g, isDigitC c = true) ∧ g.length ≤ hi := by
  obtain ⟨_, hhi, hq, _⟩ := h
  refine ⟨hq, ?_⟩
  have := hhi (hi + 0) rfl
  omega

theorem isDigitC_toNat (c : Char) (h : isDigitC c = true) :
    48 ≤ c.toNat ∧ c.toNat ≤ 57 := by
  simp only [isDigitC, Bool.and_eq_true, decide_eq_true_eq] at h
  obtain ⟨h1, h2⟩ := h
  exact ⟨h1, h2⟩

theorem natOfDigits_lt_pow (l : List Char) (h : ∀ c ∈ l, isDigitC c = true) :
    natOfDigits l < 10 ^ l.length := by
  suffices haux : ∀ acc, List.foldl (fun n c => 10 * n + (c.toNat - 48)) acc l <
      (acc + 1) * 10 ^ l.length by
    have := haux 0
    simpa [natOfDigits] using this
  induction l with
  | nil => intro acc; simp
  | cons c rest ih =>
    intro acc
    rw [List.foldl_cons, List.length_cons]
    have hc := isDigitC_toNat c (h c (by simp))
    have hrec := ih (fun x hx => h x (by simp [hx])) (10 * acc + (c.toNat - 48))
    have hstep : (10 * acc + (c.toNat - 48) + 1) * 10 ^ rest.length ≤
        (acc + 1) * 10 ^ (rest.length + 1) := by
      rw [pow_succ]
      have h9 : c.toNat - 48 ≤ 9 := by omega
      nlinarith [pow_pos (by omega : 0 < 10) rest.length]
    omega

theorem ite_some_inv {c : Prop} [Decidable c] {a n : Nat} {r : Option Nat}
    (h : (if c then some a else r) = some n) : n = a ∨ r = some n := by
  split at h
  · exact Or.inl (Option.some.inj h).symm
  · exact Or.inr h

theorem monthMap_le (s : List Char) (n : Nat) (h : monthMap s = some n) :
    n ≤ 12 := by
  unfold monthMap at h
  rcases ite_some_inv h with rfl | h; · omega
  rcases ite_some_inv h with rfl | h; · omega
  rcases ite_some_inv h with rfl | h; · omega
  rcases ite_some_inv h with rfl | h; · omega
  rcases ite_some_inv h with rfl | h; · omega
  rcases ite_some_inv h with rfl | h; · omega
  rcases ite_some_inv h with rfl | h; · omega
  rcases ite_some_inv h with rfl | h; · omega
  rcases ite_some_inv h with rfl | h; · omega
  rcases ite_some_inv h with rfl | h; · omega
  rcases ite_some_inv h with rfl | h; · omega
  rcases ite_some_inv h with rfl | h; · omega
  rcases ite_some_inv h with rfl | h; · omega
  rcases ite_some_inv h with rfl | h; · omega
  rcases ite_some_inv h with rfl | h; · omega
  rcases ite_some_inv h with rfl | h; · omega
  rcases ite_some_inv h with rfl | h; · omega
  rcases ite_some_inv h with rfl | h; · omega
  rcases ite_some_inv h with rfl | h; · omega
  rcases ite_some_inv h with rfl | h; · omega
  rcases ite_some_inv h with rfl | h; · omega
  rcases ite_some_inv h with rfl | h; · omega
  rcases ite_some_inv h with rfl | h; · omega
  cases h

/-! Facts about two-digit formatting, decided by evaluation. -/

set_option maxHeartbeats 1000000 in
theorem pad2_two : ∀ n, n < 100 →
    (pad2 n).length = 2 ∧ (∀ c ∈ pad2 n, isDigitC c = true) ∧
      natOfDigits (pad2 n) = n := by decide

theorem fmtDate_parts (y m d : Nat) (hm : m ≤ 99) (hd : d ≤ 99) :
    ∃ a b c1 c2 e1 e2,
      (fmtDate y m d).data = [a, b, '-', c1, c2, '-', e1, e2] ∧
      isDigitC a = true ∧ isDigitC b = true ∧ isDigitC c1 = true ∧
      isDigitC c2 = true ∧ isDigitC e1 = true ∧ isDigitC e2 = true ∧
      natOfDigits [a, b] = y % 100 ∧
      natOfDigits [c1, c2] = m ∧ natOfDigits [e1, e2] = d := by
  have hy := pad2_two (y % 100) (Nat.mod_lt y (by omega))
  have hmm := pad2_two m (by omega)
  have hdd := pad2_two d (by omega)
  obtain ⟨a, b, hab⟩ := List.length_eq_two.mp hy.1
  obtain ⟨c1, c2, hc⟩ := List.length_eq_two.mp hmm.1
  obtain ⟨e1, e2, he⟩ := List.length_eq_two.mp hdd.1
  refine ⟨a, b, c1, c2, e1, e2, ?_, ?_, ?_, ?_, ?_, ?_, ?_, ?_, ?_, ?_⟩
  · show pad2 (y % 100) ++ '-' :: (pad2 m ++ '-' :: pad2 d) = _
    rw [hab, hc, he]
    rfl
  · exact hy.2.1 a (by rw [hab]; simp)
  · exact hy.2.1 b (by rw [hab]; simp)
  · exact hmm.2.1 c1 (by rw [hc]; simp)
  · exact hmm.2.1 c2 (by rw [hc]; simp)
  · exact hdd.2.1 e1 (by rw [he]; simp)
  · exact hdd.2.1 e2 (by rw [he]; simp)
  · rw [← hab]; exact hy.2.2
  · rw [← hc]; exact hmm.2.2
  · rw [← he]; exact hdd.2.2

theorem engConv_eq_some (ms ds ys : List Char) (y m d : Nat)
    (h : engConv ms ds ys = some (y, m, d)) :
    monthMap (ms.map asciiUpper) = some m ∧ y = natOfDigits ys ∧
      d = natOfDigits ds := by
  unfold engConv at h
  rcases hmm : monthMap (ms.map asciiUpper) with _ | mv <;> rw [hmm] at h
  · cases h
  · simp only [] at h
    split at h
    · simp only [Option.some.injEq, Prod.mk.injEq] at h
      obtain ⟨h1, h2, h3⟩ := h
      exact ⟨by rw [h2], h1.symm, h3.symm⟩
    · cases h

/-- One English branch: whatever `tryEngPat` returns is a formatted date
whose month comes from `month_map` (≤ 12) and whose day is a 1-2 digit
capture (≤ 99). -/
theorem tryEngPat_shape (pat : List RTok) (sp1 sp2 sp3 : GSpec)
    (perm : List Char → List Char → List Char →
      List Char × List Char × List Char)
    (hc : Caps pat [sp1, sp2, sp3])
    (hday : ∀ a b c, SpecSat a sp1 → SpecSat b sp2 → SpecSat c sp3 →
      (∀ ch ∈ (perm a b c).2.1, isDigitC ch = true) ∧
        (perm a b c).2.1.length ≤ 2)
    (text : List Char) (res : String)
    (h : tryEngPat text pat perm = some res) :
    ∃ y m d, res = fmtDate y m d ∧ m ≤ 99 ∧ d ≤ 99 := by
  unfold tryEngPat at h
  split at h
  · rename_i a b c heq
    have hf := rsearch_caps dateFuel pat _ hc _ _ heq
    rcases hf with _ | ⟨hs1, _ | ⟨hs2, _ | ⟨hs3, _⟩⟩⟩
    obtain ⟨hdig, hlen⟩ := hday a b c hs1 hs2 hs3
    rcases he : engConv (perm a b c).1 (perm a b c).2.1 (perm a b c).2.2
      with _ | ⟨⟨y, m2, d⟩⟩ <;> rw [he] at h
    · cases h
    · simp only [Option.map_some', Option.some.injEq] at h
      obtain ⟨hmm, hy, hd⟩ := engConv_eq_some _ _ _ _ _ _ he
      have hb2 : natOfDigits (perm a b c).2.1 ≤ 99 := by
        have h1 := natOfDigits_lt_pow _ hdig
        have hp : (10 : Nat) ^ (perm a b c).2.1.length ≤ 10 ^ 2 :=
          Nat.pow_le_pow_right (by omega) hlen
        omega
      refine ⟨y, m2, d, h.symm, ?_, ?_⟩
      · have := monthMap_le _ _ hmm
        omega
      · omega
  · cases h

/-- One Japanese/numeric branch: whatever `tryJpPat` returns is a formatted
date with 1-2 digit month and day captures (≤ 99). -/
theorem tryJpPat_shape (pat : List RTok) (sp1 : GSpec) (era : Nat → Nat)
    (hc : Caps pat [sp1, dGrpSpec 1 2, dGrpSpec 1 2])
    (text : List Char) (res : String)
    (h : tryJpPat text pat era = some res) :
    ∃ y m d, res = fmtDate y m d ∧ m ≤ 99 ∧ d ≤ 99 := by
  have bound2 : ∀ (g : List Char), (∀ ch ∈ g, isDigitC ch = true) →
      g.length ≤ 2 → natOfDigits g ≤ 99 := by
    intro g hdig hlen
    have h1 := natOfDigits_lt_pow g hdig
    have hp : (10 : Nat) ^ g.length ≤ 10 ^ 2 :=
      Nat.pow_le_pow_right (by omega) hlen
    omega
  unfold tryJpPat at h
  split at h
  · rename_i a b c heq
    have hf := rsearch_caps dateFuel pat _ hc _ _ heq
    rcases hf with _ | ⟨_, _ | ⟨hs2, _ | ⟨hs3, _⟩⟩⟩
    obtain ⟨hdigb, hlenb⟩ := specSat_dGrp b 1 2 hs2
    obtain ⟨hdigc, hlenc⟩ := specSat_dGrp c 1 2 hs3
    simp only [Option.some.injEq] at h
    exact ⟨era (natOfDigits a), natOfDigits b, natOfDigits c, h.symm,
      bound2 b hdigb hlenb, bound2 c hdigc hlenc⟩
  · cases h

/-- Structure of every value `extract_date` can return: a formatted date
whose month and day components are at most two digits. -/
theorem extract_date_shape (text : String) (s : String)
    (h : extract_date text = some s) :
    ∃ y m d, s = fmtDate y m d ∧ m ≤ 99 ∧ d ≤ 99 := by
  unfold extract_date at h
  rcases orElse_eq_some _ _ _ h with h1 | ⟨_, h⟩
  · exact tryEngPat_shape engPat1 _ _ _ _ engPat1_caps
      (fun a b c _ hb _ => specSat_dGrp b 1 2 hb) _ s h1
  rcases orElse_eq_some _ _ _ h with h1 | ⟨_, h⟩
  · exact tryEngPat_shape engPat2 _ _ _ _ engPat2_caps
      (fun a b c ha _ _ => specSat_dGrp a 1 2 ha) _ s h1
  rcases orElse_eq_some _ _ _ h with h1 | ⟨_, h⟩
  · exact tryEngPat_shape engPat3 _ _ _ _ engPat3_caps
      (fun a b c _ _ hc2 => specSat_dGrp c 1 2 hc2) _ s h1
  rcases orElse_eq_some _ _ _ h with h1 | ⟨_, h⟩
  · exact tryJpPat_shape jpPatYmd _ id jpPatYmd_caps _ s h1
  rcases orElse_eq_some _ _ _ h with h1 | ⟨_, h⟩
  · exact tryJpPat_shape jpPatSlash _ id jpPatSlash_caps _ s h1
  rcases orElse_eq_some _ _ _ h with h1 | ⟨_, h⟩
  · exact tryJpPat_shape jpPatDash _ id jpPatDash_caps _ s h1
  rcases orElse_eq_some _ _ _ h with h1 | ⟨_, h⟩
  · exact tryJpPat_shape jpPatReiwa _ (2018 + ·) jpPatReiwa_caps _ s h1
  rcases orElse_eq_some _ _ _ h with h1 | ⟨_, h⟩
  · exact tryJpPat_shape jpPatR _ (2018 + ·) jpPatR_caps _ s h1
  exact tryJpPat_shape jpPatHeisei _ (1988 + ·) jpPatHeisei_caps _ s h


/-! ### C10: the shape of every extracted date -/

/-- C10: every value returned by `extract_date` is exactly `DD-DD-DD` — two
decimal digits, a hyphen, two digits, a hyphen, two digits (8 characters in
all), carrying `year % 100`, the month and the day as zero-padded two-digit
groups — even when month or day exceeds its calendar bound. -/
theorem extract_date_format (text s : String) (h : extract_date text = some s) :
    s.length = 8 ∧ ∃ y m d, s = fmtDate y m d ∧ ∃ a b c1 c2 e1 e2,
      s.data = [a, b, '-', c1, c2, '-', e1, e2] ∧
      isDigitC a = true ∧ isDigitC b = true ∧ isDigitC c1 = true ∧
      isDigitC c2 = true ∧ isDigitC e1 = true ∧ isDigitC e2 = true ∧
      natOfDigits [a, b] = y % 100 ∧ natOfDigits [c1, c2] = m ∧
      natOfDigits [e1, e2] = d := by
  obtain ⟨y, m, d, rfl, hm, hd⟩ := extract_date_shape text s h
  obtain ⟨a, b, c1, c2, e1, e2, hdata, h1, h2, h3, h4, h5, h6, hy2, hmn, hdn⟩ :=
    fmtDate_parts y m d hm hd
  refine ⟨?_, y, m, d, rfl, a, b, c1, c2, e1, e2, hdata,
    h1, h2, h3, h4, h5, h6, hy2, hmn, hdn⟩
  show (fmtDate y m d).data.length = 8
  rw [hdata]
  rfl

/-- Witness for C10 at the concrete input `R6.1.15`. -/
theorem extract_date_format_witness :
    ("24-01-15" : String).length = 8 ∧ ∃ y m d,
      ("24-01-15" : String) = fmtDate y m d ∧ ∃ a b c1 c2 e1 e2,
      ("24-01-15" : String).data = [a, b, '-', c1, c2, '-', e1, e2] ∧
      isDigitC a = true ∧ isDigitC b = true ∧ isDigitC c1 = true ∧
      isDigitC c2 = true ∧ isDigitC e1 = true ∧ isDigitC e2 = true ∧
      natOfDigits [a, b] = y % 100 ∧ natOfDigits [c1, c2] = m ∧
      natOfDigits [e1, e2] = d :=
  extract_date_format "R6.1.15" "24-01-15" (by decide)

/-! ### C2: bounds on the month and day components of an extracted date -/

/-- The month component of a formatted date string (characters 3-4). -/
def dateMonthComp (s : String) : Nat := natOfDigits ((s.data.drop 3).take 2)

/-- The day component of a formatted date string (characters 6-7). -/
def dateDayComp (s : String) : Nat := natOfDigits ((s.data.drop 6).take 2)

/-- C2 (amended): the month and day components of every date `extract_date`
returns are bounded by 99 (they are one- or two-digit captures), but not by
the claimed calendar bounds 12 and 31 — see the counterexample. -/
theorem extract_date_components_bounded (text s : String)
    (h : extract_date text = some s) :
    dateMonthComp s ≤ 99 ∧ dateDayComp s ≤ 99 := by
  obtain ⟨y, m, d, rfl, hm, hd⟩ := extract_date_shape text s h
  obtain ⟨a, b, c1, c2, e1, e2, hdata, _, _, _, _, _, _, _, hmn, hdn⟩ :=
    fmtDate_parts y m d hm hd
  constructor
  · show natOfDigits (((fmtDate y m d).data.drop 3).take 2) ≤ 99
    rw [hdata]
    show natOfDigits [c1, c2] ≤ 99
    omega
  · show natOfDigits (((fmtDate y m d).data.drop 6).take 2) ≤ 99
    rw [hdata]
    show natOfDigits [e1, e2] ≤ 99
    omega

/-- Witness for the amended C2 at the concrete input `2024/1/5`. -/
theorem extract_date_components_bounded_witness :
    dateMonthComp "24-01-05" ≤ 99 ∧ dateDayComp "24-01-05" ≤ 99 :=
  extract_date_components_bounded "2024/1/5" "24-01-05" (by decide)

/-- Counterexample to C2 as stated: the out-of-calendar date `2024年13月40日`
is accepted verbatim, yielding month 13 and day 40. -/
theorem extract_date_components_cex :
    extract_date "2024年13月40日" = some "24-13-40" ∧
      dateMonthComp "24-13-40" = 13 ∧ dateDayComp "24-13-40" = 40 ∧
      ¬(dateMonthComp "24-13-40" ≤ 12 ∧ dateDayComp "24-13-40" ≤ 31) := by
  refine ⟨by decide, by decide, by decide, by decide⟩


/-! ### C4: era conversion and two-digit year truncation -/

set_option maxHeartbeats 4000000 in
/-- C4: Reiwa N converts to western year 2018 + N and Heisei N to 1988 + N
for every one- or two-digit N ≥ 1 (swept exhaustively), the emitted year is
always `year % 100` zero-padded (the shape of `fmtDate`), and the three
concrete examples of the specification hold. -/
theorem extract_date_era :
    (∀ n, n < 100 → 1 ≤ n →
      extract_date ⟨"令和".data ++ natRepr n ++ "年1月15日".data⟩ =
        some (fmtDate (2018 + n) 1 15)) ∧
    (∀ n, n < 100 → 1 ≤ n →
      extract_date ⟨"平成".data ++ natRepr n ++ "年1月15日".data⟩ =
        some (fmtDate (1988 + n) 1 15)) ∧
    extract_date "令和6年1月15日" = some "24-01-15" ∧
    extract_date "平成31年1月15日" = some "19-01-15" ∧
    extract_date "AUG . 04 . 2025" = some "25-08-04" := by
  refine ⟨?_, ?_, ?_, ?_, ?_⟩ <;> decide

/-- Witness for C4, applying the swept conversion facts at N = 6 and N = 31. -/
theorem extract_date_era_witness :
    extract_date ⟨"令和".data ++ natRepr 6 ++ "年1月15日".data⟩ =
      some (fmtDate (2018 + 6) 1 15) ∧
    extract_date ⟨"平成".data ++ natRepr 31 ++ "年1月15日".data⟩ =
      some (fmtDate (1988 + 31) 1 15) :=
  ⟨extract_date_era.1 6 (by decide) (by decide),
   extract_date_era.2.1 31 (by decide) (by decide)⟩


/-! ### C8: totality of the parser and non-emptiness of populated fields -/

theorem dropWhile_head_false (p : Char → Bool) :
    ∀ (l : List Char) (c : Char) (rest : List Char),
      l.dropWhile p = c :: rest → p c = false := by
  intro l
  induction l with
  | nil => intro c rest h; cases h
  | cons a t ih =>
    intro c rest h
    rw [List.dropWhile_cons] at h
    split at h
    · exact ih c rest h
    · rename_i hp
      injection h with h1 h2
      subst h1
      simp only [Bool.not_eq_true] at hp
      exact hp

theorem stripEnds_head_false (p : Char → Bool) (l : List Char) (c : Char)
    (rest : List Char) (h : stripEnds p l = c :: rest) : p c = false := by
  unfold stripEnds rstripP at h
  have hsuf : ((l.dropWhile p).reverse.dropWhile p) <:+ (l.dropWhile p).reverse :=
    List.dropWhile_suffix p
  have hpre : ((l.dropWhile p).reverse.dropWhile p).reverse <+: l.dropWhile p := by
    have h2 := List.reverse_prefix.mpr hsuf
    rwa [List.reverse_reverse] at h2
  rw [h] at hpre
  obtain ⟨t, ht⟩ := hpre
  exact dropWhile_head_false p l c (rest ++ t) (by rw [← ht, List.cons_append])

theorem stripEnds_ne_nil (p : Char → Bool) (l : List Char) (c : Char)
    (hc : c ∈ l) (hpc : p c = false) : stripEnds p l ≠ [] := by
  intro hnil
  unfold stripEnds rstripP at hnil
  rw [List.reverse_eq_nil_iff, List.dropWhile_eq_nil_iff] at hnil
  have hcd : c ∈ l.dropWhile p := by
    have hsplit : l.takeWhile p ++ l.dropWhile p = l := by simp
    rw [← hsplit] at hc
    rcases List.mem_append.mp hc with h1 | h2
    · exact absurd (List.mem_takeWhile_imp h1) (by simp [hpc])
    · exact h2
  have hpc2 := hnil c (List.mem_reverse.mpr hcd)
  rw [hpc] at hpc2
  cases hpc2

theorem isPyWs_toNat (c : Char) (h : isPyWs c = true) :
    c.toNat ≤ 32 ∨ 133 ≤ c.toNat := by
  simp only [isPyWs, Bool.or_eq_true, Bool.and_eq_true, decide_eq_true_eq,
    beq_iff_eq] at h
  omega

theorem isPyAlnum_not_ws (c : Char) (h : isPyAlnum c = true) : isPyWs c = false := by
  have hb : 48 ≤ c.toNat ∧ c.toNat ≤ 57 ∨ 65 ≤ c.toNat ∧ c.toNat ≤ 90 ∨
      97 ≤ c.toNat ∧ c.toNat ≤ 122 := by
    simp only [isPyAlnum, isAsciiLetter, isDigitC, Bool.or_eq_true,
      Bool.and_eq_true, decide_eq_true_eq] at h
    rcases h with (⟨h1, h2⟩ | ⟨h1, h2⟩) | ⟨h1, h2⟩
    · exact Or.inr (Or.inl ⟨h1, h2⟩)
    · exact Or.inr (Or.inr ⟨h1, h2⟩)
    · exact Or.inl ⟨h1, h2⟩
  cases hws : isPyWs c
  · rfl
  · have h2 := isPyWs_toNat c hws
    omega

/-- The populated date field: `fmtDate` always carries a hyphen, so it
survives trimming. -/
theorem fmtDate_strip_ne (y m d : Nat) :
    stripEnds isPyWs (fmtDate y m d).data ≠ [] := by
  have hmem : '-' ∈ (fmtDate y m d).data := by
    show '-' ∈ pad2 (y % 100) ++ '-' :: (pad2 m ++ '-' :: pad2 d)
    simp
  exact stripEnds_ne_nil isPyWs _ '-' hmem (by decide)

/-- Every string `dimProcessMatch` returns contains the separator `x`. -/
theorem dimProcessMatch_mem_x (gs : List (List Char)) (s : String)
    (h : dimProcessMatch gs = some s) : 'x' ∈ s.data := by
  unfold dimProcessMatch at h
  split at h
  · rename_i g0 g1 g2
    simp only [] at h
    split at h
    · cases h
      show 'x' ∈ g0 ++ 'x' :: _
      simp
    · cases h
  · rename_i g0 g1
    simp only [] at h
    split at h
    · cases h
      show 'x' ∈ g0 ++ 'x' :: _
      simp
    · cases h
  · cases h

theorem runDimPatterns_mem_x (st : List Char) (s : String)
    (h : runDimPatterns st = some s) : 'x' ∈ s.data := by
  unfold runDimPatterns at h
  obtain ⟨pat, _, h2⟩ := firstSome_eq_some _ _ _ h
  obtain ⟨mg, _, h3⟩ := firstSome_eq_some _ _ _ h2
  exact dimProcessMatch_mem_x _ _ h3

theorem extract_dimensions_mem_x (text s : String)
    (h : extract_dimensions text = some s) : 'x' ∈ s.data := by
  unfold extract_dimensions at h
  split at h
  · rcases orElse_eq_some _ _ _ h with h1 | ⟨_, h1⟩ <;>
      exact runDimPatterns_mem_x _ _ h1
  · exact runDimPatterns_mem_x _ _ h

/-- A character case-insensitively equal to the letter `S`, the first letter
of the capture of every material pattern. -/
def rMatChar (c : Char) : Bool := ciChar true 'S' c

/-- A case variant of `S` upper-cases to a character that is not a space and
not whitespace. -/
theorem ciChar_S (c : Char) (h : ciChar true 'S' c = true) :
    (asciiUpper c != ' ') = true ∧ isPyWs (asciiUpper c) = false := by
  have h2 : asciiLower c = 's' := by
    have h3 : (asciiLower 'S' == asciiLower c) = true := h
    have h4 := eq_of_beq h3
    rw [show asciiLower 'S' = 's' from by decide] at h4
    exact h4.symm
  unfold asciiLower at h2
  split at h2
  · rename_i hup
    simp only [Bool.and_eq_true, decide_eq_true_eq] at hup
    obtain ⟨h5, h6⟩ := hup
    have h5n : 65 ≤ c.toNat := h5
    have h6n : c.toNat ≤ 90 := h6
    have hup_eq : asciiUpper c = c := by
      unfold asciiUpper
      rw [if_neg]
      simp only [Bool.and_eq_true, decide_eq_true_eq, not_and]
      intro h7 h8
      have h7n : 97 ≤ c.toNat := h7
      omega
    rw [hup_eq]
    constructor
    · rw [bne_iff_ne]
      intro he
      rw [he] at h5n
      exact absurd h5n (by decide)
    · cases hws : isPyWs c
      · rfl
      · have h9 := isPyWs_toNat c hws
        omega
  · subst h2
    exact ⟨by decide, by decide⟩

/-- Every material pattern captures one group that is guaranteed to contain
a case variant of `S` (each pattern's capture starts with a literal beginning
in `S`). -/
theorem matPats_grnt (pat : List RTok) (hp : pat ∈ matPats) :
    ∃ sp : GSpec, Caps pat [sp] ∧ sp.r = rMatChar ∧ sp.grnt := by
  simp only [matPats, List.mem_cons, List.not_mem_nil, or_false] at hp
  rcases hp with rfl | rfl | rfl | rfl | rfl | rfl | rfl | rfl | rfl | rfl | rfl | rfl
  · exact ⟨_, Caps.bdry (Caps.openg (InCaps.lit (fun _ _ _ _ => rfl)
      (InCaps.cls (fun _ _ => rfl) (InCaps.cls (fun _ _ => rfl)
        (InCaps.cls (fun _ _ => rfl) (InCaps.close (Caps.bdry Caps.nil))))))),
      rfl, Or.inr ⟨'S', by decide, fun _ hc => hc⟩⟩
  · exact ⟨_, Caps.bdry (Caps.openg (InCaps.alt2
      (InCaps.lit (fun _ _ _ _ => rfl) (InCaps.cls (fun _ _ => rfl)
        (InCaps.close (Caps.bdry Caps.nil))))
      (InCaps.lit (fun _ _ _ _ => rfl) (InCaps.cls (fun _ _ => rfl)
        (InCaps.close (Caps.bdry Caps.nil)))))),
      rfl, ⟨Or.inr ⟨'S', by decide, fun _ hc => hc⟩,
            Or.inr ⟨'S', by decide, fun _ hc => hc⟩⟩⟩
  · exact ⟨_, Caps.bdry (Caps.openg (InCaps.lit (fun _ _ _ _ => rfl)
      (InCaps.cls (fun _ _ => rfl) (InCaps.close (Caps.bdry Caps.nil))))),
      rfl, Or.inr ⟨'S', by decide, fun _ hc => hc⟩⟩
  · exact ⟨_, Caps.bdry (Caps.openg (InCaps.lit (fun _ _ _ _ => rfl)
      (InCaps.cls (fun _ _ => rfl) (InCaps.lit (fun _ _ _ _ => rfl)
        (InCaps.close (Caps.bdry Caps.nil)))))),
      rfl, Or.inr ⟨'S', by decide, fun _ hc => hc⟩⟩
  · exact ⟨_, Caps.bdry (Caps.openg (InCaps.lit (fun _ _ _ _ => rfl)
      (InCaps.cls (fun _ _ => rfl) (InCaps.lit (fun _ _ _ _ => rfl)
        (InCaps.close (Caps.bdry Caps.nil)))))),
      rfl, Or.inr ⟨'S', by decide, fun _ hc => hc⟩⟩
  · exact ⟨_, Caps.bdry (Caps.openg (InCaps.lit (fun _ _ _ _ => rfl)
      (InCaps.cls (fun _ _ => rfl) (InCaps.close (Caps.bdry Caps.nil))))),
      rfl, Or.inr ⟨'S', by decide, fun _ hc => hc⟩⟩
  · exact ⟨_, Caps.bdry (Caps.openg (InCaps.lit (fun _ _ _ _ => rfl)
      (InCaps.cls (fun _ _ => rfl) (InCaps.cls (fun _ _ => rfl)
        (InCaps.cls (fun _ _ => rfl) (InCaps.close (Caps.bdry Caps.nil))))))),
      rfl, Or.inr ⟨'S', by decide, fun _ hc => hc⟩⟩
  · exact ⟨_, Caps.bdry (Caps.openg (InCaps.lit (fun _ _ _ _ => rfl)
      (InCaps.cls (fun _ _ => rfl) (InCaps.close (Caps.bdry Caps.nil))))),
      rfl, Or.inr ⟨'S', by decide, fun _ hc => hc⟩⟩
  · exact ⟨_, Caps.bdry (Caps.openg (InCaps.lit (fun _ _ _ _ => rfl)
      (InCaps.cls (fun _ _ => rfl) (InCaps.cls (fun _ _ => rfl)
        (InCaps.close (Caps.bdry Caps.nil)))))),
      rfl, Or.inr ⟨'S', by decide, fun _ hc => hc⟩⟩
  · exact ⟨_, Caps.bdry (Caps.openg (InCaps.lit (fun _ _ _ _ => rfl)
      (InCaps.cls (fun _ _ => rfl) (InCaps.close (Caps.bdry Caps.nil))))),
      rfl, Or.inr ⟨'S', by decide, fun _ hc => hc⟩⟩
  · exact ⟨_, Caps.bdry (Caps.openg (InCaps.lit (fun _ _ _ _ => rfl)
      (InCaps.cls (fun _ _ => rfl) (InCaps.close (Caps.bdry Caps.nil))))),
      rfl, Or.inr ⟨'S', by decide, fun _ hc => hc⟩⟩
  · exact ⟨_, Caps.bdry (Caps.openg (InCaps.lit (fun _ _ _ _ => rfl)
      (InCaps.cls (fun _ _ => rfl) (InCaps.cls (fun _ _ => rfl)
        (InCaps.cls (fun _ _ => rfl) (InCaps.close (Caps.bdry Caps.nil))))))),
      rfl, Or.inr ⟨'S', by decide, fun _ hc => hc⟩⟩

/-- The populated material field survives trimming: the upper-cased capture
keeps its `S`. -/
theorem extract_material_strip_ne (text s : String)
    (h : extract_material text = some s) : stripEnds isPyWs s.data ≠ [] := by
  unfold extract_material at h
  obtain ⟨pat, hp, h2⟩ := firstSome_eq_some _ _ _ h
  rcases hsr : rsearch matFuel pat text.data with _ | gl <;> rw [hsr] at h2
  · cases h2
  · rcases gl with _ | ⟨g, _ | ⟨g2, grest⟩⟩
    · cases h2
    · simp only [] at h2
      obtain ⟨sp, hc, hr, hg⟩ := matPats_grnt pat hp
      have hforall := rsearch_caps matFuel pat [sp] hc text.data [g] hsr
      rcases hforall with _ | ⟨hs1, _⟩
      obtain ⟨_, _, _, hgr⟩ := hs1
      obtain ⟨ch, hcg, hcr⟩ := hgr hg
      rw [hr] at hcr
      obtain ⟨hne, hws⟩ := ciChar_S ch hcr
      have hmem : asciiUpper ch ∈ (g.map asciiUpper).filter fun x => x != ' ' :=
        List.mem_filter.mpr ⟨List.mem_map_of_mem _ hcg, hne⟩
      cases h2
      exact stripEnds_ne_nil isPyWs _ (asciiUpper ch) hmem hws
    · cases h2

/-- The populated charge-number field survives trimming: it is validated to
be at least four alphanumeric characters. -/
theorem extract_charge_strip_ne (text s : String)
    (h : extract_charge_no text = some s) : stripEnds isPyWs s.data ≠ [] := by
  unfold extract_charge_no at h
  obtain ⟨pat, hp, h2⟩ := firstSome_eq_some _ _ _ h
  rcases hsr : rsearch chargeFuel pat text.data with _ | gl <;> rw [hsr] at h2
  · cases h2
  · rcases gl with _ | ⟨g, _ | ⟨g2, grest⟩⟩
    · cases h2
    · simp only [] at h2
      split at h2
      · rename_i hcond
        obtain ⟨hlen, _, halnum⟩ := hcond
        cases h2
        rcases hch : g.map asciiUpper with _ | ⟨ch, chrest⟩
        · rw [hch] at hlen
          exact absurd hlen (by decide)
        · rw [hch] at halnum
          simp only [pyIsAlnumStr, Bool.and_eq_true, List.all_eq_true] at halnum
          have hal := halnum.2 ch (by simp)
          have hws := isPyAlnum_not_ws ch hal
          show stripEnds isPyWs (ch :: chrest) ≠ []
          exact stripEnds_ne_nil isPyWs _ ch (by simp) hws
      · cases h2
    · cases h2

/-- The populated manufacturer field survives trimming: priority names are
non-empty constants, and a fallback name is already stripped and has length
at least two. -/
theorem extract_manufacturer_strip_ne (text s : String)
    (h : extract_manufacturer text = some s) : stripEnds isPyWs s.data ≠ [] := by
  unfold extract_manufacturer at h
  rcases orElse_eq_some _ _ _ h with h1 | ⟨_, h1⟩
  · unfold findPriority at h1
    obtain ⟨entry, hmem, h2⟩ := firstSome_eq_some _ _ _ h1
    split at h2
    · cases h2
      simp only [PRIORITY_MANUFACTURERS, List.mem_cons, List.not_mem_nil,
        or_false] at hmem
      rcases hmem with rfl | rfl | rfl <;> decide
    · cases h2
  · obtain ⟨pat, hp, h2⟩ := firstSome_eq_some _ _ _ h1
    rcases hsr : rsearch manuFuel pat text.data with _ | gl <;> rw [hsr] at h2
    · cases h2
    · rcases gl with _ | ⟨g, _ | ⟨g2, grest⟩⟩
      · cases h2
      · simp only [] at h2
        split at h2
        · rename_i hcond
          cases h2
          show stripEnds isPyWs (stripEnds isPyWs g) ≠ []
          rcases hsg : stripEnds isPyWs g with _ | ⟨ch, chrest⟩
          · rw [hsg] at hcond
            exact absurd hcond.1 (by decide)
          · have hchws := stripEnds_head_false isPyWs g ch chrest hsg
            exact stripEnds_ne_nil isPyWs _ ch (by simp) hchws
        · cases h2
      · cases h2

/-- C8: `parse_extracted_text` is total (a function by construction, as in the
source, which raises nothing), and every populated field among date,
material, dimensions, manufacturer and charge number is non-empty after
trimming whitespace. -/
theorem parse_extracted_text_fields_nonempty (text : String) :
    (∀ s, (parse_extracted_text text).date = some s →
      stripEnds isPyWs s.data ≠ []) ∧
    (∀ s, (parse_extracted_text text).material = some s →
      stripEnds isPyWs s.data ≠ []) ∧
    (∀ s, (parse_extracted_text text).dimensions = some s →
      stripEnds isPyWs s.data ≠ []) ∧
    (∀ s, (parse_extracted_text text).manufacturer = some s →
      stripEnds isPyWs s.data ≠ []) ∧
    (∀ s, (parse_extracted_text text).charge_no = some s →
      stripEnds isPyWs s.data ≠ []) := by
  refine ⟨?_, ?_, ?_, ?_, ?_⟩ <;> intro s h
  · obtain ⟨y, m, d, rfl, _, _⟩ := extract_date_shape text s h
    exact fmtDate_strip_ne y m d
  · exact extract_material_strip_ne text s h
  · exact stripEnds_ne_nil isPyWs _ 'x' (extract_dimensions_mem_x text s h)
      (by decide)
  · exact extract_manufacturer_strip_ne text s h
  · exact extract_charge_strip_ne text s h

set_option maxHeartbeats 2000000 in
/-- Witness for C8 on a text populating all five fields. -/
theorem parse_extracted_text_fields_nonempty_witness :
    stripEnds isPyWs ("24-01-15" : String).data ≠ [] ∧
    stripEnds isPyWs ("SS400" : String).data ≠ [] ∧
    stripEnds isPyWs ("1.6x1219xC" : String).data ≠ [] ∧
    stripEnds isPyWs ("東京製鉄" : String).data ≠ [] ∧
    stripEnds isPyWs ("AB1234" : String).data ≠ [] :=
  ⟨(parse_extracted_text_fields_nonempty
      "東京製鉄 SS400 1.6x1219xCOIL CHARGE No: AB1234 2024年1月15日").1
      "24-01-15" (by decide),
   (parse_extracted_text_fields_nonempty
      "東京製鉄 SS400 1.6x1219xCOIL CHARGE No: AB1234 2024年1月15日").2.1
      "SS400" (by decide),
   (parse_extracted_text_fields_nonempty
      "東京製鉄 SS400 1.6x1219xCOIL CHARGE No: AB1234 2024年1月15日").2.2.1
      "1.6x1219xC" (by decide),
   (parse_extracted_text_fields_nonempty
      "東京製鉄 SS400 1.6x1219xCOIL CHARGE No: AB1234 2024年1月15日").2.2.2.1
      "東京製鉄" (by decide),
   (parse_extracted_text_fields_nonempty
      "東京製鉄 SS400 1.6x1219xCOIL CHARGE No: AB1234 2024年1月15日").2.2.2.2
      "AB1234" (by decide)⟩

end Mill
